import Mathlib

/-!
Verification of the gqlparser lexer (src/lexer/lexer.go).

The Go source is shallowly embedded at the byte level: the input string is a
`List Nat` of byte values (each < 256), byte offsets and rune offsets are `Nat`,
and every loop of the source is translated as a fuel-indexed structural
recursion whose wrapper instantiates the fuel with `input.length + 1`, which
strictly exceeds the number of iterations any of the loops can perform (every
iteration advances the byte cursor by at least one and stops at or before the
end of the input).  Go's `utf8.DecodeRuneInString` is modelled by `decodeRune`,
and a Go runtime panic (index out of range) is modelled by the `Res.runtimeErr`
result.
-/

namespace GqlLexer

/-- Modelled from the spec: the token kinds (spec section 6 lists the closed set
`Invalid, EOF, Bang, Dollar, Amp, ParenL, ParenR, Spread, Colon, Equals, At,
BracketL, BracketR, BraceL, BraceR, Pipe, Name, Int, Float, String, BlockString,
Comment`); the declaring file token.go is not part of the provided sources.  The
constructor for the right bracket is spelled `BrackedR` because lexer.go refers
to it by that identifier.  `Invalid` is listed first, so it is the zero value of
the Go type. -/
inductive TokType where
  | Invalid
  | EOF
  | Bang
  | Dollar
  | Amp
  | ParenL
  | ParenR
  | Spread
  | Colon
  | Equals
  | At
  | BracketL
  | BrackedR
  | BraceL
  | BraceR
  | Pipe
  | Name
  | Int
  | Float
  | String
  | BlockString
  | Comment
deriving Repr, DecidableEq

/-- A token; fields as in the Go `Token` struct.  `value` is the Go string
field `Value` as a byte list, `endPos` is the Go field `End` (a rune offset),
`start` the Go field `Start`. -/
@[ext]
structure Token where
  kind : TokType
  start : Nat
  endPos : Nat
  value : List Nat
  line : Nat
  column : Nat
deriving Repr, DecidableEq

/-- The zero value of the Go `Token` struct. -/
def zeroToken : Token := ⟨.Invalid, 0, 0, [], 0, 0⟩

/-- The Go `Lexer` struct.  `end_` is the Go field `end` (a byte offset,
renamed because `end` is a Lean keyword). -/
@[ext]
structure Lexer where
  input : List Nat
  start : Nat
  startRunes : Nat
  end_ : Nat
  endRunes : Nat
  line : Nat
  lineStartRunes : Nat
  peeked : Bool
  peekToken : Token
  peekError : Option String
  lastToken : Token
deriving Repr, DecidableEq

/-- Result of an operation that can hit a Go runtime panic (`runtimeErr`, used
for the out-of-bounds index in `readBlockString`) or exhaust its recursion
fuel (`fuelOut`, never reached with the fuel supplied by the wrappers). -/
inductive Res (α : Type) where
  | ok : α → Res α
  | runtimeErr : Res α
  | fuelOut : Res α
deriving Repr, DecidableEq

/-- Go `New(input)`. -/
def Lexer.New (input : List Nat) : Lexer :=
  { input := input, start := 0, startRunes := 0, end_ := 0, endRunes := 0,
    line := 1, lineStartRunes := 0, peeked := false, peekToken := zeroToken,
    peekError := none, lastToken := zeroToken }

/-- Whether a byte is a UTF-8 continuation byte (0x80-0xBF). -/
def isCont (b : Nat) : Bool := 0x80 ≤ b && b ≤ 0xBF

/-- Second-byte acceptance for a three-byte UTF-8 sequence headed by `b0`,
following the acceptance ranges of Go's `unicode/utf8` package (this excludes
overlong encodings and surrogates). -/
def accept3 (b0 b1 : Nat) : Bool :=
  (b0 = 0xE0 && 0xA0 ≤ b1 && b1 ≤ 0xBF) ||
  (0xE1 ≤ b0 && b0 ≤ 0xEC && isCont b1) ||
  (b0 = 0xED && 0x80 ≤ b1 && b1 ≤ 0x9F) ||
  (0xEE ≤ b0 && b0 ≤ 0xEF && isCont b1)

/-- Second-byte acceptance for a four-byte UTF-8 sequence headed by `b0`,
following Go's `unicode/utf8` package. -/
def accept4 (b0 b1 : Nat) : Bool :=
  (b0 = 0xF0 && 0x90 ≤ b1 && b1 ≤ 0xBF) ||
  (0xF1 ≤ b0 && b0 ≤ 0xF3 && isCont b1) ||
  (b0 = 0xF4 && 0x80 ≤ b1 && b1 ≤ 0x8F)

/-- Go `utf8.DecodeRuneInString` on a byte suffix: returns the decoded code
point and its width.  An empty input yields `(RuneError, 0)`; an invalid or
truncated sequence yields `(RuneError, 1)`. -/
def decodeRune : List Nat → Nat × Nat
  | [] => (0xFFFD, 0)
  | b0 :: rest =>
    if b0 < 0x80 then (b0, 1)
    else if 0xC2 ≤ b0 && b0 ≤ 0xDF then
      match rest with
      | b1 :: _ =>
        if isCont b1 then ((b0 - 0xC0) * 0x40 + (b1 - 0x80), 2) else (0xFFFD, 1)
      | [] => (0xFFFD, 1)
    else if 0xE0 ≤ b0 && b0 ≤ 0xEF then
      match rest with
      | b1 :: b2 :: _ =>
        if accept3 b0 b1 && isCont b2 then
          ((b0 - 0xE0) * 0x1000 + (b1 - 0x80) * 0x40 + (b2 - 0x80), 3)
        else (0xFFFD, 1)
      | _ => (0xFFFD, 1)
    else if 0xF0 ≤ b0 && b0 ≤ 0xF4 then
      match rest with
      | b1 :: b2 :: b3 :: _ =>
        if accept4 b0 b1 && isCont b2 && isCont b3 then
          ((b0 - 0xF0) * 0x40000 + (b1 - 0x80) * 0x1000 + (b2 - 0x80) * 0x40
            + (b3 - 0x80), 4)
        else (0xFFFD, 1)
      | _ => (0xFFFD, 1)
    else (0xFFFD, 1)

/-- UTF-8 encoding of a code point, as Go's `utf8.EncodeRune` produces for
valid code points. -/
def utf8Encode (c : Nat) : List Nat :=
  if c < 0x80 then [c]
  else if c < 0x800 then [0xC0 + c / 0x40, 0x80 + c % 0x40]
  else if c < 0x10000 then
    [0xE0 + c / 0x1000, 0x80 + (c / 0x40) % 0x40, 0x80 + c % 0x40]
  else
    [0xF0 + c / 0x40000, 0x80 + (c / 0x1000) % 0x40, 0x80 + (c / 0x40) % 0x40,
      0x80 + c % 0x40]

/-- Go `bytes.Buffer.WriteRune`: surrogates and out-of-range values are
replaced by U+FFFD before encoding. -/
def writeRune (c : Nat) : List Nat :=
  if c < 0x110000 && !(0xD800 ≤ c && c < 0xE000) then utf8Encode c
  else utf8Encode 0xFFFD

/-- Concatenated UTF-8 encoding of a list of code points. -/
def encodeAll (cps : List Nat) : List Nat := (cps.map utf8Encode).flatten

/-- Whether every element is a Unicode scalar value (no surrogates). -/
def validCps (cps : List Nat) : Bool :=
  cps.all (fun c => c < 0x110000 && !(0xD800 ≤ c && c < 0xE000))

/-- Decode a byte list to a Lean string, rune by rune, as Go renders a string
value (used for the error-message fragments that interpolate input slices). -/
def goStrAux : Nat → List Nat → List Char
  | 0, _ => []
  | _ + 1, [] => []
  | fuel + 1, b :: rest =>
    let d := decodeRune (b :: rest)
    Char.ofNat d.1 :: goStrAux fuel ((b :: rest).drop d.2)

/-- Byte list rendered as a string (greedy UTF-8 decoding). -/
def goStr (bs : List Nat) : String := String.mk (goStrAux (bs.length + 1) bs)

/-- Go `string(rune(b))`: a single code point as a string. -/
def charStr (b : Nat) : String := goStr (utf8Encode b)

/-- Zero-padded 4-digit decimal rendering, as Go's format verb `%04d` produces
for the values that occur here (all < 10000). -/
def pad4 (n : Nat) : String :=
  (if n < 10 then "000" else if n < 100 then "00" else if n < 1000 then "0"
   else "") ++ toString n

namespace Lexer

/-- The byte slice `s.input[a:b]`. -/
def slice (s : Lexer) (a b : Nat) : List Nat := (s.input.drop a).take (b - a)

/-- Go `(*Lexer).makeToken` (the token component; the error component is nil). -/
def makeToken (s : Lexer) (kind : TokType) : Token :=
  { kind := kind, start := s.startRunes, endPos := s.endRunes,
    value := s.slice s.start s.end_, line := s.line,
    column := s.startRunes - s.lineStartRunes + 1 }

/-- Go `(*Lexer).makeError` (the token component; the message is paired at
each call site). -/
def makeErrorTok (s : Lexer) : Token :=
  { kind := .Invalid, start := s.startRunes, endPos := s.endRunes,
    value := [], line := s.line,
    column := s.endRunes - s.lineStartRunes + 1 }

/-- Go `(*Lexer).peek`: decode one rune at the cursor. -/
def peek (s : Lexer) : Nat × Nat := decodeRune (s.input.drop s.end_)

/-- Go `(*Lexer).describeNext`. -/
def describeNext (s : Lexer) : String :=
  if s.end_ < s.input.length then
    "\"" ++ charStr (s.input.getD s.end_ 0) ++ "\""
  else "<EOF>"

/-- Go `(*Lexer).LastToken`. -/
def LastToken (s : Lexer) : Token := s.lastToken

/-- Loop body of Go `(*Lexer).ws`: skip whitespace, commas, line breaks and
the UTF-8 BOM, maintaining the line counters. -/
def wsRun : Nat → Lexer → Lexer
  | 0, s => s
  | fuel + 1, s =>
    if s.end_ < s.input.length then
      let c := s.input.getD s.end_ 0
      if c = 9 ∨ c = 32 ∨ c = 44 then
        wsRun fuel { s with end_ := s.end_ + 1, endRunes := s.endRunes + 1 }
      else if c = 10 then
        wsRun fuel { s with end_ := s.end_ + 1, endRunes := s.endRunes + 1,
                            line := s.line + 1, lineStartRunes := s.endRunes + 1 }
      else if c = 13 then
        let s1 : Lexer :=
          { s with end_ := s.end_ + 1, endRunes := s.endRunes + 1,
                   line := s.line + 1, lineStartRunes := s.endRunes + 1 }
        -- skip the following newline if its there (the Go source updates only
        -- the cursor here, not lineStartRunes; its else branch is empty)
        let s2 : Lexer :=
          if s1.end_ < s1.input.length ∧ s1.input.getD s1.end_ 0 = 10 then
            { s1 with end_ := s1.end_ + 1, endRunes := s1.endRunes + 1 }
          else s1
        wsRun fuel s2
      else if c = 0xEF then
        if s.end_ + 2 < s.input.length ∧ s.input.getD (s.end_ + 1) 0 = 0xBB ∧
            s.input.getD (s.end_ + 2) 0 = 0xBF then
          wsRun fuel { s with end_ := s.end_ + 3, endRunes := s.endRunes + 1 }
        else s
      else s
    else s

/-- Go `(*Lexer).ws`. -/
def ws (s : Lexer) : Lexer := wsRun (s.input.length + 1) s

/-- Loop body of Go `(*Lexer).readComment`: consume while the next code point
is a tab or above U+001F. -/
def readCommentRun : Nat → Lexer → Lexer
  | 0, s => s
  | fuel + 1, s =>
    if s.end_ < s.input.length then
      let rw := s.peek
      if 0x1F < rw.1 ∨ rw.1 = 9 then
        readCommentRun fuel { s with end_ := s.end_ + rw.2,
                                     endRunes := s.endRunes + 1 }
      else s
    else s

/-- Go `(*Lexer).readComment`. -/
def readComment (s : Lexer) : Token × Option String × Lexer :=
  let s' := readCommentRun (s.input.length + 1) s
  (s'.makeToken .Comment, none, s')

/-- Loop body of Go `(*Lexer).readName`: consume `[_0-9A-Za-z]` code points. -/
def readNameRun : Nat → Lexer → Lexer
  | 0, s => s
  | fuel + 1, s =>
    if s.end_ < s.input.length then
      let rw := s.peek
      if (48 ≤ rw.1 ∧ rw.1 ≤ 57) ∨ (65 ≤ rw.1 ∧ rw.1 ≤ 90) ∨
          (97 ≤ rw.1 ∧ rw.1 ≤ 122) ∨ rw.1 = 95 then
        readNameRun fuel { s with end_ := s.end_ + rw.2,
                                  endRunes := s.endRunes + 1 }
      else s
    else s

/-- Go `(*Lexer).readName`. -/
def readName (s : Lexer) : Token × Option String × Lexer :=
  let s' := readNameRun (s.input.length + 1) s
  (s'.makeToken .Name, none, s')

/-- Go `(*Lexer).acceptByte`: consume one byte if it is among `bs`. -/
def acceptByte (s : Lexer) (bs : List Nat) : Bool × Lexer :=
  if s.end_ ≥ s.input.length then (false, s)
  else if s.input.getD s.end_ 0 ∈ bs then
    (true, { s with end_ := s.end_ + 1, endRunes := s.endRunes + 1 })
  else (false, s)

/-- Loop body of Go `(*Lexer).acceptDigits`: count and consume `0-9` bytes. -/
def acceptDigitsRun : Nat → Lexer → Nat × Lexer
  | 0, s => (0, s)
  | fuel + 1, s =>
    if s.end_ < s.input.length ∧ 48 ≤ s.input.getD s.end_ 0 ∧
        s.input.getD s.end_ 0 ≤ 57 then
      let r := acceptDigitsRun fuel
        { s with end_ := s.end_ + 1, endRunes := s.endRunes + 1 }
      (r.1 + 1, r.2)
    else (0, s)

/-- Go `(*Lexer).acceptDigits`. -/
def acceptDigits (s : Lexer) : Nat × Lexer := acceptDigitsRun (s.input.length + 1) s

/-- Fraction, exponent and final-token part of Go `(*Lexer).readNumber`
(everything after the integer part); `float` records whether a fraction has
been seen. -/
def readNumberTail (s : Lexer) (float : Bool) : Token × Option String × Lexer :=
  let de := s.acceptByte [101, 69]
  if de.1 then
    let ds := de.2.acceptByte [45, 43]
    let dd := ds.2.acceptDigits
    if dd.1 = 0 then
      (dd.2.makeErrorTok,
        some ("Invalid number, expected digit but got: " ++ dd.2.describeNext ++ "."),
        dd.2)
    else (dd.2.makeToken .Float, none, dd.2)
  else if float then (de.2.makeToken .Float, none, de.2)
  else (de.2.makeToken .Int, none, de.2)

/-- Fraction part of Go `(*Lexer).readNumber`. -/
def readNumberFrac (s : Lexer) : Token × Option String × Lexer :=
  let dp := s.acceptByte [46]
  if dp.1 then
    let dd := dp.2.acceptDigits
    if dd.1 = 0 then
      (dd.2.makeErrorTok,
        some ("Invalid number, expected digit but got: " ++ dd.2.describeNext ++ "."),
        dd.2)
    else readNumberTail dd.2 true
  else readNumberTail dp.2 false

/-- Go `(*Lexer).readNumber`: back up to the first byte of the literal, accept
an optional minus, the integer part, then the fraction and exponent parts. -/
def readNumber (s : Lexer) : Token × Option String × Lexer :=
  let s0 : Lexer := { s with end_ := s.end_ - 1, endRunes := s.endRunes - 1 }
  let dm := s0.acceptByte [45]
  let dz := dm.2.acceptByte [48]
  if dz.1 then
    let dd := dz.2.acceptDigits
    if dd.1 ≠ 0 then
      let s2 : Lexer := { dd.2 with end_ := dd.2.end_ - dd.1,
                                    endRunes := dd.2.endRunes - dd.1 }
      (s2.makeErrorTok,
        some ("Invalid number, unexpected digit after 0: " ++ s2.describeNext ++ "."),
        s2)
    else readNumberFrac dd.2
  else
    let dd := dz.2.acceptDigits
    if dd.1 = 0 then
      (dd.2.makeErrorTok,
        some ("Invalid number, expected digit but got: " ++ dd.2.describeNext ++ "."),
        dd.2)
    else readNumberFrac dd.2

/-- Go `unhex`: hex value of a 4-byte slice, `none` when a non-hex-digit
appears (Go iterates over the runes of the slice, but any rune that passes the
hex test is a single ASCII byte, so the byte-wise fold is the same function). -/
def unhex : List Nat → Nat → Option Nat
  | [], v => some v
  | c :: rest, v =>
    if 48 ≤ c ∧ c ≤ 57 then unhex rest (v * 16 + (c - 48))
    else if 97 ≤ c ∧ c ≤ 102 then unhex rest (v * 16 + (c - 97 + 10))
    else if 65 ≤ c ∧ c ≤ 70 then unhex rest (v * 16 + (c - 65 + 10))
    else none

/-- Loop body of Go `(*Lexer).readString`; `buf` is the lazily created decode
buffer (`none` while no escape has been seen). -/
def readStringRun : Nat → Lexer → Option (List Nat) → Token × Option String × Lexer
  | 0, s, _ => (s.makeErrorTok, some "Unterminated string.", s)
  | fuel + 1, s, buf =>
    if s.end_ < s.input.length then
      let r := s.input.getD s.end_ 0
      if r = 10 ∨ r = 13 then (s.makeErrorTok, some "Unterminated string.", s)
      else if r < 0x20 ∧ r ≠ 9 then
        (s.makeErrorTok,
          some ("Invalid character within String: \"\\u" ++ pad4 r ++ "\"."), s)
      else if r = 34 then
        let t0 := s.makeToken .String
        let t1 : Token :=
          { t0 with start := t0.start - 1, endPos := t0.endPos + 1,
                    value := match buf with | some b => b | none => t0.value }
        (t1, none, { s with end_ := s.end_ + 1, endRunes := s.endRunes + 1 })
      else if r = 92 then
        if s.end_ + 1 ≥ s.input.length then
          let s1 : Lexer := { s with end_ := s.end_ + 1, endRunes := s.endRunes + 1 }
          (s1.makeErrorTok, some "Invalid character escape sequence.", s1)
        else
          let buf1 := match buf with
            | none => s.slice s.start s.end_
            | some b => b
          let esc := s.input.getD (s.end_ + 1) 0
          if esc = 117 then
            if s.end_ + 6 ≥ s.input.length then
              let s1 : Lexer := { s with end_ := s.end_ + 1, endRunes := s.endRunes + 1 }
              (s1.makeErrorTok,
                some ("Invalid character escape sequence: \\" ++
                  goStr (s1.input.drop s1.end_) ++ "."), s1)
            else
              match unhex ((s.input.drop (s.end_ + 2)).take 4) 0 with
              | none =>
                let s1 : Lexer := { s with end_ := s.end_ + 1, endRunes := s.endRunes + 1 }
                (s1.makeErrorTok,
                  some ("Invalid character escape sequence: \\" ++
                    goStr ((s1.input.drop s1.end_).take 5) ++ "."), s1)
              | some rr =>
                readStringRun fuel
                  { s with end_ := s.end_ + 6, endRunes := s.endRunes + 6 }
                  (some (buf1 ++ writeRune rr))
          else
            let w : Option Nat :=
              if esc = 34 ∨ esc = 47 ∨ esc = 92 then some esc
              else if esc = 98 then some 8
              else if esc = 102 then some 12
              else if esc = 110 then some 10
              else if esc = 114 then some 13
              else if esc = 116 then some 9
              else none
            match w with
            | none =>
              let s1 : Lexer := { s with end_ := s.end_ + 1, endRunes := s.endRunes + 1 }
              (s1.makeErrorTok,
                some ("Invalid character escape sequence: \\" ++ charStr esc ++ "."),
                s1)
            | some b =>
              readStringRun fuel
                { s with end_ := s.end_ + 2, endRunes := s.endRunes + 2 }
                (some (buf1 ++ [b]))
      else
        let cw : Nat × Nat :=
          if r ≥ 127 then decodeRune (s.input.drop s.end_) else (r, 1)
        readStringRun fuel
          { s with end_ := s.end_ + cw.2, endRunes := s.endRunes + 1 }
          (match buf with | some b => some (b ++ writeRune cw.1) | none => none)
    else (s.makeErrorTok, some "Unterminated string.", s)

/-- Go `(*Lexer).readString`: skip the opening quote, then run the loop. -/
def readString (s : Lexer) : Token × Option String × Lexer :=
  let s1 : Lexer := { s with start := s.start + 1, startRunes := s.startRunes + 1 }
  readStringRun (s1.input.length + 1) s1 none

end Lexer

/-- Modelled from the spec: the external block-string normalization
`normalizeBlockString` (`blockStringValue` in the code) is out of scope per
spec section 1 and its defining file is not part of the provided sources; the
spec commits only to it being a pure function of the collected raw body, and no
claim depends on its output, so it is modelled as the identity. -/
def blockStringValue (raw : List Nat) : List Nat := raw

namespace Lexer

/-- Loop body of Go `(*Lexer).readBlockString`; `buf` is the body buffer.  The
carriage-return branch reproduces the source's bounds test `s.end+1 <=
inputLen` followed by the index `s.input[s.end+1]`, so when the carriage return
is the final byte the index is out of range and the result is a runtime
error. -/
def readBlockStringRun : Nat → Lexer → List Nat → Res (Token × Option String × Lexer)
  | 0, s, _ => .ok (s.makeErrorTok, some "Unterminated string.", s)
  | fuel + 1, s, buf =>
    if s.end_ < s.input.length then
      let r := s.input.getD s.end_ 0
      if r = 34 ∧ s.end_ + 3 ≤ s.input.length ∧
          (s.input.drop s.end_).take 3 = [34, 34, 34] then
        let t0 := s.makeToken .BlockString
        let t1 : Token :=
          { t0 with start := t0.start - 3, endPos := t0.endPos + 3,
                    value := blockStringValue buf }
        .ok (t1, none, { s with end_ := s.end_ + 3, endRunes := s.endRunes + 3 })
      else if r < 0x20 ∧ r ≠ 9 ∧ r ≠ 10 ∧ r ≠ 13 then
        .ok (s.makeErrorTok,
          some ("Invalid character within String: \"\\u" ++ pad4 r ++ "\"."), s)
      else if r = 92 ∧ s.end_ + 4 ≤ s.input.length ∧
          (s.input.drop s.end_).take 4 = [92, 34, 34, 34] then
        readBlockStringRun fuel
          { s with end_ := s.end_ + 4, endRunes := s.endRunes + 4 }
          (buf ++ [34, 34, 34])
      else if r = 13 then
        if s.end_ + 1 ≤ s.input.length then
          match s.input.get? (s.end_ + 1) with
          | none => .runtimeErr
          | some c =>
            let s1 : Lexer :=
              if c = 10 then
                { s with end_ := s.end_ + 1, endRunes := s.endRunes + 1 }
              else s
            readBlockStringRun fuel
              { s1 with end_ := s1.end_ + 1, endRunes := s1.endRunes + 1 }
              (buf ++ [10])
        else
          readBlockStringRun fuel
            { s with end_ := s.end_ + 1, endRunes := s.endRunes + 1 }
            (buf ++ [10])
      else
        let cw : Nat × Nat :=
          if r ≥ 127 then decodeRune (s.input.drop s.end_) else (r, 1)
        readBlockStringRun fuel
          { s with end_ := s.end_ + cw.2, endRunes := s.endRunes + 1 }
          (buf ++ writeRune cw.1)
    else .ok (s.makeErrorTok, some "Unterminated string.", s)

/-- Go `(*Lexer).readBlockString`: skip the opening triple quote, then run the
loop. -/
def readBlockString (s : Lexer) : Res (Token × Option String × Lexer) :=
  let s1 : Lexer := { s with start := s.start + 3, startRunes := s.startRunes + 3,
                             end_ := s.end_ + 2, endRunes := s.endRunes + 2 }
  readBlockStringRun (s1.input.length + 1) s1 []

/-- Wrap a return of Go `ReadToken`: the deferred assignment stores the
returned token in `lastToken`. -/
def ret (t : Token) (e : Option String) (s : Lexer) :
    Res (Token × Option String × Lexer) :=
  .ok (t, e, { s with lastToken := t })

/-- The dispatch switch of Go `(*Lexer).ReadToken` for every byte except `#`
(which recurses and is handled by `ReadTokenAux`): `s` is the state after the
dispatched byte `r` has been consumed.  The deferred `lastToken` assignment is
applied by the wrapper `dispatchRest` below. -/
def dispatchCore (r : Nat) (s : Lexer) : Res (Token × Option String × Lexer) :=
  if r = 33 then .ok (s.makeToken .Bang, none, s)
  else if r = 36 then .ok (s.makeToken .Dollar, none, s)
  else if r = 38 then .ok (s.makeToken .Amp, none, s)
  else if r = 40 then .ok (s.makeToken .ParenL, none, s)
  else if r = 41 then .ok (s.makeToken .ParenR, none, s)
  else if r = 46 then
    if s.input.length > s.start + 2 ∧ (s.input.drop s.start).take 3 = [46, 46, 46] then
      let s1 : Lexer := { s with end_ := s.end_ + 2, endRunes := s.endRunes + 2 }
      .ok (s1.makeToken .Spread, none, s1)
    else
      let s1 : Lexer := { s with end_ := s.end_ - 1, endRunes := s.endRunes - 1 }
      .ok (s1.makeErrorTok,
        some ("Cannot parse the unexpected character \"" ++ charStr r ++ "\"."),
        s1)
  else if r = 58 then .ok (s.makeToken .Colon, none, s)
  else if r = 61 then .ok (s.makeToken .Equals, none, s)
  else if r = 64 then .ok (s.makeToken .At, none, s)
  else if r = 91 then .ok (s.makeToken .BracketL, none, s)
  else if r = 93 then .ok (s.makeToken .BrackedR, none, s)
  else if r = 123 then .ok (s.makeToken .BraceL, none, s)
  else if r = 125 then .ok (s.makeToken .BraceR, none, s)
  else if r = 124 then .ok (s.makeToken .Pipe, none, s)
  else if r = 95 ∨ (65 ≤ r ∧ r ≤ 90) ∨ (97 ≤ r ∧ r ≤ 122) then .ok s.readName
  else if r = 45 ∨ (48 ≤ r ∧ r ≤ 57) then .ok s.readNumber
  else if r = 34 then
    if s.input.length > s.start + 2 ∧ (s.input.drop s.start).take 3 = [34, 34, 34] then
      s.readBlockString
    else .ok s.readString
  else
    let s1 : Lexer := { s with end_ := s.end_ - 1, endRunes := s.endRunes - 1 }
    if r < 0x20 ∧ r ≠ 9 ∧ r ≠ 10 ∧ r ≠ 13 then
      .ok (s1.makeErrorTok,
        some ("Cannot contain the invalid character \"\\u" ++ pad4 r ++ "\""), s1)
    else if r = 39 then
      .ok (s1.makeErrorTok,
        some "Unexpected single quote character ('), did you mean to use a double quote (\")?",
        s1)
    else
      .ok (s1.makeErrorTok,
        some ("Cannot parse the unexpected character \"" ++ charStr r ++ "\"."),
        s1)

/-- The dispatch switch with the deferred `lastToken` assignment of Go
`ReadToken` applied to the returned token. -/
def dispatchRest (r : Nat) (s : Lexer) : Res (Token × Option String × Lexer) :=
  match dispatchCore r s with
  | .ok (t, e, s') => ret t e s'
  | .runtimeErr => .runtimeErr
  | .fuelOut => .fuelOut

/-- Go `(*Lexer).ReadToken`, fuel-indexed for the recursion on comments:
consume the cached peek if present, skip whitespace, then dispatch on the next
byte. -/
def ReadTokenAux : Nat → Lexer → Res (Token × Option String × Lexer)
  | 0, _ => .fuelOut
  | fuel + 1, s0 =>
    if s0.peeked then
      ret s0.peekToken s0.peekError { s0 with peeked := false }
    else
      let s1 := s0.ws
      let s2 : Lexer := { s1 with start := s1.end_, startRunes := s1.endRunes }
      if s2.input.length ≤ s2.end_ then ret (s2.makeToken .EOF) none s2
      else
        let r := s2.input.getD s2.start 0
        let s3 : Lexer := { s2 with end_ := s2.end_ + 1, endRunes := s2.endRunes + 1 }
        if r = 35 then
          ReadTokenAux fuel s3.readComment.2.2
        else dispatchRest r s3

/-- Go `(*Lexer).ReadToken` with the fuel instantiated (one unit per comment
skipped plus one; the comment recursion consumes at least one input byte per
level, so `input.length + 1` always suffices). -/
def ReadToken (s : Lexer) : Res (Token × Option String × Lexer) :=
  ReadTokenAux (s.input.length + 1) s

/-- Go `(*Lexer).PeekToken`: fill the one-token cache by reading once, and
return the cached token. -/
def PeekToken (s : Lexer) : Res (Token × Lexer) :=
  if s.peeked then .ok (s.peekToken, s)
  else
    match s.ReadToken with
    | .ok (t, e, s') =>
      .ok (t, { s' with peeked := true, peekToken := t, peekError := e })
    | .runtimeErr => .runtimeErr
    | .fuelOut => .fuelOut

end Lexer

/-- Iterated `ReadToken`: `readIter 0` is one call, `readIter (n+1)` makes one
call and continues from the resulting state. -/
def readIter : Nat → Lexer → Res (Token × Option String × Lexer)
  | 0, s => s.ReadToken
  | n + 1, s =>
    match s.ReadToken with
    | .ok (_, _, s') => readIter n s'
    | .runtimeErr => .runtimeErr
    | .fuelOut => .fuelOut

/-- Apply a sequence of API calls (`true` = `ReadToken`, `false` = `PeekToken`)
and return the final state. -/
def applyOps : List Bool → Lexer → Res Lexer
  | [], s => .ok s
  | true :: ops, s =>
    match s.ReadToken with
    | .ok (_, _, s') => applyOps ops s'
    | .runtimeErr => .runtimeErr
    | .fuelOut => .fuelOut
  | false :: ops, s =>
    match s.PeekToken with
    | .ok (_, s') => applyOps ops s'
    | .runtimeErr => .runtimeErr
    | .fuelOut => .fuelOut

/-- The token of an `ok` result. -/
def resTok (r : Res (Token × Option String × Lexer)) : Option Token :=
  match r with
  | .ok (t, _, _) => some t
  | _ => none

/-- The error of an `ok` result. -/
def resErr (r : Res (Token × Option String × Lexer)) : Option (Option String) :=
  match r with
  | .ok (_, e, _) => some e
  | _ => none

/-- Byte length of the encoding of the first `k` code points. -/
def encLen (cps : List Nat) (k : Nat) : Nat := (encodeAll (cps.take k)).length

/-- The byte offset `n` and rune offset `r` address the boundary after the
first `r` code points of `cps`. -/
def Pos (cps : List Nat) (n r : Nat) : Prop := r ≤ cps.length ∧ n = encLen cps r

/-- The fields of the lexer state that the token sub-scanners leave unchanged,
together with the cursor staying on a code-point boundary. -/
def StepInv (cps : List Nat) (s s' : GqlLexer.Lexer) : Prop :=
  s'.input = s.input ∧ s'.start = s.start ∧ s'.startRunes = s.startRunes ∧
  Pos cps s'.end_ s'.endRunes ∧ s.endRunes ≤ s'.endRunes

/-- The rune-offset invariant of reachable lexer states on well-formed input:
the input is the encoding of the code points, both cursors sit on code-point
boundaries at the rune offsets the state records, and the token start does not
come after the cursor. -/
def InvL (cps : List Nat) (s : GqlLexer.Lexer) : Prop :=
  s.input = encodeAll cps ∧ Pos cps s.start s.startRunes ∧
  Pos cps s.end_ s.endRunes ∧ s.startRunes ≤ s.endRunes

/-! ## General step lemmas -/

namespace Lexer

/-- The whitespace skipper does not move when the cursor is at end of input or
on a byte that is not whitespace, comma, line break, or a BOM lead byte. -/
theorem wsRun_stop (fuel : Nat) (s : Lexer)
    (h : s.input.length ≤ s.end_ ∨
      (¬(s.input.getD s.end_ 0 = 9 ∨ s.input.getD s.end_ 0 = 32 ∨ s.input.getD s.end_ 0 = 44) ∧
       s.input.getD s.end_ 0 ≠ 10 ∧ s.input.getD s.end_ 0 ≠ 13 ∧ s.input.getD s.end_ 0 ≠ 0xEF)) :
    Lexer.wsRun fuel s = s := by
  cases fuel with
  | zero => rfl
  | succ f =>
    rcases h with h | ⟨h1, h2, h3, h4⟩
    · rw [Lexer.wsRun, if_neg (by omega)]
    · rw [Lexer.wsRun]
      split
      · rw [if_neg h1, if_neg h2, if_neg h3, if_neg h4]
      · rfl

/-- Wrapper form of `wsRun_stop`. -/
theorem ws_stop (s : Lexer)
    (h : s.input.length ≤ s.end_ ∨
      (¬(s.input.getD s.end_ 0 = 9 ∨ s.input.getD s.end_ 0 = 32 ∨ s.input.getD s.end_ 0 = 44) ∧
       s.input.getD s.end_ 0 ≠ 10 ∧ s.input.getD s.end_ 0 ≠ 13 ∧ s.input.getD s.end_ 0 ≠ 0xEF)) :
    s.ws = s := wsRun_stop _ s h

/-- When the whitespace skipper does not move, the cursor is in bounds and the
dispatched byte is not a comment sign, `ReadToken` reduces to the dispatch
switch on the state that has consumed that byte. -/
theorem ReadToken_dispatch (s : Lexer) (r : Nat) (hp : s.peeked = false)
    (hws : s.ws = s) (hlt : s.end_ < s.input.length)
    (hr : s.input.getD s.end_ 0 = r) (h35 : r ≠ 35) :
    s.ReadToken = Lexer.dispatchRest r
      { s with start := s.end_, startRunes := s.endRunes,
               end_ := s.end_ + 1, endRunes := s.endRunes + 1 } := by
  have hle : ¬(s.input.length ≤ s.end_) := not_le.mpr hlt
  simp only [Lexer.ReadToken, Lexer.ReadTokenAux, hp, Bool.false_eq_true, if_false, hws,
    hle, hr, if_neg h35]

/-- On a control byte other than tab, line feed and carriage return, the
dispatch core rewinds one byte and reports the invalid character. -/
theorem dispatchCore_invalid_char (r : Nat) (s : Lexer) (h1 : r < 32) (h2 : r ≠ 9)
    (h3 : r ≠ 10) (h4 : r ≠ 13) :
    Lexer.dispatchCore r s =
      .ok (Lexer.makeErrorTok { s with end_ := s.end_ - 1, endRunes := s.endRunes - 1 },
        some ("Cannot contain the invalid character \"\\u" ++ pad4 r ++ "\""),
        { s with end_ := s.end_ - 1, endRunes := s.endRunes - 1 }) := by
  rw [Lexer.dispatchCore, if_neg (show ¬(r = 33) by omega), if_neg (show ¬(r = 36) by omega),
    if_neg (show ¬(r = 38) by omega), if_neg (show ¬(r = 40) by omega),
    if_neg (show ¬(r = 41) by omega), if_neg (show ¬(r = 46) by omega),
    if_neg (show ¬(r = 58) by omega), if_neg (show ¬(r = 61) by omega),
    if_neg (show ¬(r = 64) by omega), if_neg (show ¬(r = 91) by omega),
    if_neg (show ¬(r = 93) by omega), if_neg (show ¬(r = 123) by omega),
    if_neg (show ¬(r = 125) by omega), if_neg (show ¬(r = 124) by omega),
    if_neg (show ¬(r = 95 ∨ 65 ≤ r ∧ r ≤ 90 ∨ 97 ≤ r ∧ r ≤ 122) by omega),
    if_neg (show ¬(r = 45 ∨ 48 ≤ r ∧ r ≤ 57) by omega),
    if_neg (show ¬(r = 34) by omega), if_pos ⟨h1, h2, h3, h4⟩]

/-- Lift of `dispatchCore_invalid_char` through the `lastToken` wrapper. -/
theorem dispatchRest_invalid_char (r : Nat) (s : Lexer) (h1 : r < 32) (h2 : r ≠ 9)
    (h3 : r ≠ 10) (h4 : r ≠ 13) :
    Lexer.dispatchRest r s =
      Lexer.ret (Lexer.makeErrorTok { s with end_ := s.end_ - 1, endRunes := s.endRunes - 1 })
        (some ("Cannot contain the invalid character \"\\u" ++ pad4 r ++ "\""))
        { s with end_ := s.end_ - 1, endRunes := s.endRunes - 1 } := by
  rw [Lexer.dispatchRest, Lexer.dispatchCore_invalid_char r s h1 h2 h3 h4]

end Lexer

/-! ## Claim theorems -/

/-- Claim C1: the claim says that a block string reaching end of input without
a closing triple quote always yields an Invalid token with the message
`Unterminated string.`, including when the last byte is a bare carriage
return.  The code instead panics on that last case: for the input consisting
of an opening triple quote followed by a single carriage return, the
carriage-return branch of `readBlockString` passes its bounds test
(`s.end+1 <= inputLen`) and indexes one byte past the end of the input, a Go
runtime panic (modelled as `runtimeErr`). -/
theorem C1_block_string_trailing_cr_panics :
    (Lexer.New [34, 34, 34, 13]).ReadToken = .runtimeErr := by decide

/-- Claim C2 counterexample: on the 12-rune input of scenario S3 the returned
String token's `End` is not 13. -/
theorem C2_counterexample :
    (resTok ((Lexer.New [34, 97, 92, 34, 98, 92, 117, 48, 48, 101, 57, 34]).ReadToken)).map
      Token.endPos ≠ some 13 := by decide

/-- Claim C2 (amended): for the source text of scenario S3 (quote, a,
backslash, quote, b, backslash, u, 0, 0, e, 9, quote), `readToken` returns a
String token with decoded value `a"bé` (bytes 97, 34, 98, 0xC3 0xA9), start 0
and end 12 (half-open rune offsets including both quote runes), with no
error. -/
theorem C2_string_escapes_amended :
    resTok ((Lexer.New [34, 97, 92, 34, 98, 92, 117, 48, 48, 101, 57, 34]).ReadToken) =
      some ⟨.String, 0, 12, [97, 34, 98, 195, 169], 1, 2⟩ ∧
    resErr ((Lexer.New [34, 97, 92, 34, 98, 92, 117, 48, 48, 101, 57, 34]).ReadToken) =
      some none := by decide

/-- Claim C3 counterexample: for the input consisting of the single byte 0x0B,
the reported message spells the byte in zero-padded decimal (`\u0011`), not in
two-digit hexadecimal (`\u000b` or `\u000B`) as the claim states. -/
theorem C3_counterexample :
    resErr ((Lexer.New [11]).ReadToken) =
      some (some "Cannot contain the invalid character \"\\u0011\"") ∧
    resErr ((Lexer.New [11]).ReadToken) ≠
      some (some "Cannot contain the invalid character \"\\u000b\"") ∧
    resErr ((Lexer.New [11]).ReadToken) ≠
      some (some "Cannot contain the invalid character \"\\u000B\"") := by decide

/-- Claim C3 (amended): for every input whose first byte `b` satisfies
`b < 0x20` and is not tab, line feed or carriage return, `readToken` returns an
Invalid token with the error message `Cannot contain the invalid character
"\uDDDD"`, where `DDDD` is the value of `b` written in decimal and zero-padded
to four digits (the Go source formats the byte with the `%04d` verb). -/
theorem C3_invalid_character_decimal (b : Nat) (rest : List Nat) (h1 : b < 32)
    (h2 : b ≠ 9) (h3 : b ≠ 10) (h4 : b ≠ 13) :
    resTok ((Lexer.New (b :: rest)).ReadToken) = some ⟨.Invalid, 0, 0, [], 1, 1⟩ ∧
    resErr ((Lexer.New (b :: rest)).ReadToken) =
      some (some ("Cannot contain the invalid character \"\\u" ++ pad4 b ++ "\"")) := by
  have hws : (Lexer.New (b :: rest)).ws = Lexer.New (b :: rest) := by
    apply Lexer.ws_stop
    right
    simp only [Lexer.New, List.getD_cons_zero]
    exact ⟨by intro hor; rcases hor with h | h | h <;> omega, by omega, by omega, by omega⟩
  rw [Lexer.ReadToken_dispatch (Lexer.New (b :: rest)) b rfl hws (by simp [Lexer.New])
    (by simp [Lexer.New]) (by omega)]
  rw [Lexer.dispatchRest_invalid_char b _ h1 h2 h3 h4]
  simp [Lexer.ret, resTok, resErr, Lexer.makeErrorTok, Lexer.New]

/-- Claim C3 witness: the amended theorem applied to the concrete byte 0x0B. -/
theorem C3_invalid_character_decimal_witness :
    (11 : Nat) < 32 ∧
    resErr ((Lexer.New [11]).ReadToken) =
      some (some ("Cannot contain the invalid character \"\\u" ++ pad4 11 ++ "\"")) :=
  ⟨by norm_num,
   (C3_invalid_character_decimal 11 [] (by norm_num) (by norm_num) (by norm_num)
     (by norm_num)).2⟩

/-- Claim C7: the claim says line breaks `\n`, `\r`, `\r\n` each count once and
that for the input `a`, CR, LF, `b` the second token is Name "b" at line 2,
column 1.  The code counts the line once but reports column 2: the whitespace
skipper consumes the LF of a CR LF pair without updating `lineStartRunes`, so
the column of the following token is off by one. -/
theorem C7_crlf_column_is_two :
    resTok (readIter 1 (Lexer.New [97, 13, 10, 98])) =
      some ⟨.Name, 3, 4, [98], 2, 2⟩ := by decide

namespace Lexer

/-- `ReadToken` on a state with a cached peek returns the cache and clears it,
storing the cached token as the last token. -/
theorem ReadToken_peeked (s : Lexer) (hp : s.peeked = true) :
    s.ReadToken = .ok (s.peekToken, s.peekError,
      { s with peeked := false, lastToken := s.peekToken }) := by
  simp only [Lexer.ReadToken, Lexer.ReadTokenAux, Lexer.ret, hp, if_true]

/-- `PeekToken` on a state with a cached peek returns the cache unchanged. -/
theorem PeekToken_peeked (s : Lexer) (hp : s.peeked = true) :
    s.PeekToken = .ok (s.peekToken, s) := by
  simp only [Lexer.PeekToken, hp, if_true]

/-- Every `ok` result of the dispatch switch records the returned token in
`lastToken`. -/
theorem dispatchRest_lastToken (r : Nat) (s : Lexer) (t : Token) (e : Option String)
    (s' : Lexer) (h : Lexer.dispatchRest r s = .ok (t, e, s')) : s'.lastToken = t := by
  unfold Lexer.dispatchRest at h
  split at h
  · simp only [Lexer.ret, Res.ok.injEq, Prod.mk.injEq] at h
    obtain ⟨rfl, -, rfl⟩ := h
    rfl
  · cases h
  · cases h

/-- Every `ok` result of `ReadTokenAux` records the returned token in
`lastToken` (the deferred assignment in Go `ReadToken`). -/
theorem readTokenAux_lastToken (fuel : Nat) (s : Lexer) (t : Token) (e : Option String)
    (s' : Lexer) (h : Lexer.ReadTokenAux fuel s = .ok (t, e, s')) : s'.lastToken = t := by
  induction fuel generalizing s t e s' with
  | zero => cases h
  | succ f ih =>
    simp only [Lexer.ReadTokenAux] at h
    split_ifs at h
    · simp only [Lexer.ret, Res.ok.injEq, Prod.mk.injEq] at h
      obtain ⟨rfl, -, rfl⟩ := h
      rfl
    · simp only [Lexer.ret, Res.ok.injEq, Prod.mk.injEq] at h
      obtain ⟨rfl, -, rfl⟩ := h
      rfl
    · exact ih _ _ _ _ h
    · exact dispatchRest_lastToken _ _ _ _ _ h

end Lexer

/-- Claim C5: for every lexer state, `peekToken()` followed by `readToken()`
yields from `readToken` exactly the cached token and error that the peek
produced, and a second `peekToken()` returns the same token with the state
completely unchanged (so the scan cursor does not advance between the two
peeks). -/
theorem C5_peek_consistency (s : Lexer) (t : Token) (s₁ : Lexer)
    (h : s.PeekToken = .ok (t, s₁)) :
    s₁.ReadToken = .ok (t, s₁.peekError, { s₁ with peeked := false, lastToken := t }) ∧
    s₁.PeekToken = .ok (t, s₁) := by
  by_cases hp : s.peeked
  · rw [Lexer.PeekToken_peeked s hp] at h
    obtain ⟨h1, h2⟩ : s.peekToken = t ∧ s = s₁ := by
      simpa [Prod.ext_iff] using h
    subst h2
    rw [← h1]
    exact ⟨Lexer.ReadToken_peeked s hp, Lexer.PeekToken_peeked s hp⟩
  · rw [Lexer.PeekToken, if_neg hp] at h
    cases hre : s.ReadToken with
    | ok v =>
      rw [hre] at h
      obtain ⟨t0, e0, s0⟩ := v
      simp only [Res.ok.injEq, Prod.mk.injEq] at h
      obtain ⟨rfl, rfl⟩ := h
      constructor
      · rw [Lexer.ReadToken_peeked _ rfl]
      · rw [Lexer.PeekToken_peeked _ rfl]
    | runtimeErr => rw [hre] at h; cases h
    | fuelOut => rw [hre] at h; cases h

/-- Claim C5 witness: the theorem applied to a fresh lexer over the single
byte `a`, whose peek succeeds with a Name token. -/
theorem C5_peek_consistency_witness :
    Lexer.PeekToken
        ⟨[97], 0, 0, 1, 1, 1, 0, true, ⟨.Name, 0, 1, [97], 1, 1⟩, none,
          ⟨.Name, 0, 1, [97], 1, 1⟩⟩ =
      .ok (⟨.Name, 0, 1, [97], 1, 1⟩,
        ⟨[97], 0, 0, 1, 1, 1, 0, true, ⟨.Name, 0, 1, [97], 1, 1⟩, none,
          ⟨.Name, 0, 1, [97], 1, 1⟩⟩) :=
  (C5_peek_consistency (Lexer.New [97]) _ _ (by decide)).2

/-- Claim C10: `peekToken()` observably mutates `lastToken`: after a peek that
returns `t`, `lastToken()` returns `t` (the hypothesis, an invariant of every
reachable peeked state, covers the case where a peek was already cached). -/
theorem C10_peek_mutates_lastToken (s : Lexer) (t : Token) (s₁ : Lexer)
    (hinv : s.peeked = true → s.lastToken = s.peekToken)
    (h : s.PeekToken = .ok (t, s₁)) : s₁.LastToken = t := by
  by_cases hp : s.peeked
  · rw [Lexer.PeekToken_peeked s hp] at h
    obtain ⟨h1, h2⟩ : s.peekToken = t ∧ s = s₁ := by simpa [Prod.ext_iff] using h
    subst h2
    rw [Lexer.LastToken, hinv hp, h1]
  · rw [Lexer.PeekToken, if_neg hp] at h
    cases hre : s.ReadToken with
    | ok v =>
      rw [hre] at h
      obtain ⟨t0, e0, s0⟩ := v
      simp only [Res.ok.injEq, Prod.mk.injEq] at h
      obtain ⟨rfl, rfl⟩ := h
      have := Lexer.readTokenAux_lastToken _ _ _ _ _ hre
      simpa [Lexer.LastToken] using this
    | runtimeErr => rw [hre] at h; cases h
    | fuelOut => rw [hre] at h; cases h

/-- Claim C10 witness: the theorem applied to a fresh lexer over the single
byte `a`; after the peek, `lastToken` is the peeked Name token. -/
theorem C10_peek_mutates_lastToken_witness :
    Lexer.LastToken
        ⟨[97], 0, 0, 1, 1, 1, 0, true, ⟨.Name, 0, 1, [97], 1, 1⟩, none,
          ⟨.Name, 0, 1, [97], 1, 1⟩⟩ =
      ⟨.Name, 0, 1, [97], 1, 1⟩ :=
  C10_peek_mutates_lastToken (Lexer.New [97]) _ _ (by decide) (by decide)


namespace Lexer

theorem acceptDigitsRun_spec (fuel : Nat) (s : Lexer) :
    (Lexer.acceptDigitsRun fuel s).2 =
      { s with end_ := s.end_ + (Lexer.acceptDigitsRun fuel s).1,
               endRunes := s.endRunes + (Lexer.acceptDigitsRun fuel s).1 } := by
  induction fuel generalizing s with
  | zero => rfl
  | succ f ih =>
    rw [Lexer.acceptDigitsRun]
    split
    · simp only [ih]
      congr 1 <;> omega
    · rfl

theorem acceptDigits_spec (s : Lexer) :
    s.acceptDigits.2 =
      { s with end_ := s.end_ + s.acceptDigits.1,
               endRunes := s.endRunes + s.acceptDigits.1 } :=
  acceptDigitsRun_spec _ s

theorem acceptDigits_pos (s : Lexer) (h1 : s.end_ < s.input.length)
    (h2 : 48 ≤ s.input.getD s.end_ 0) (h3 : s.input.getD s.end_ 0 ≤ 57) :
    1 ≤ s.acceptDigits.1 := by
  rw [Lexer.acceptDigits, Lexer.acceptDigitsRun, if_pos ⟨h1, h2, h3⟩]
  exact Nat.succ_le_succ (Nat.zero_le _)

theorem resTok_ret (t : Token) (e : Option String) (s : Lexer) :
    resTok (Lexer.ret t e s) = some t := rfl

theorem resErr_ret (t : Token) (e : Option String) (s : Lexer) :
    resErr (Lexer.ret t e s) = some e := rfl

theorem dispatchRest_eq (r : Nat) (s : Lexer) (p : Token × Option String × Lexer)
    (h : Lexer.dispatchCore r s = .ok p) :
    Lexer.dispatchRest r s = Lexer.ret p.1 p.2.1 p.2.2 := by
  obtain ⟨t, e, s'⟩ := p
  rw [Lexer.dispatchRest, h]

theorem dispatchCore_number (r : Nat) (s : Lexer) (h : r = 45 ∨ (48 ≤ r ∧ r ≤ 57)) :
    Lexer.dispatchCore r s = .ok s.readNumber := by
  rw [Lexer.dispatchCore, if_neg (show ¬(r = 33) by omega), if_neg (show ¬(r = 36) by omega),
    if_neg (show ¬(r = 38) by omega), if_neg (show ¬(r = 40) by omega),
    if_neg (show ¬(r = 41) by omega), if_neg (show ¬(r = 46) by omega),
    if_neg (show ¬(r = 58) by omega), if_neg (show ¬(r = 61) by omega),
    if_neg (show ¬(r = 64) by omega), if_neg (show ¬(r = 91) by omega),
    if_neg (show ¬(r = 93) by omega), if_neg (show ¬(r = 123) by omega),
    if_neg (show ¬(r = 125) by omega), if_neg (show ¬(r = 124) by omega),
    if_neg (show ¬(r = 95 ∨ 65 ≤ r ∧ r ≤ 90 ∨ 97 ≤ r ∧ r ≤ 122) by omega),
    if_pos h]

end Lexer

namespace Lexer

theorem acceptByte_yes (s : Lexer) (bs : List Nat) (h1 : s.end_ < s.input.length)
    (h2 : s.input.getD s.end_ 0 ∈ bs) :
    s.acceptByte bs = (true, { s with end_ := s.end_ + 1, endRunes := s.endRunes + 1 }) := by
  rw [Lexer.acceptByte, if_neg (show ¬(s.end_ ≥ s.input.length) by omega), if_pos h2]

theorem acceptByte_no (s : Lexer) (bs : List Nat)
    (h : s.input.length ≤ s.end_ ∨ s.input.getD s.end_ 0 ∉ bs) :
    s.acceptByte bs = (false, s) := by
  rw [Lexer.acceptByte]
  rcases h with h | h
  · rw [if_pos (show s.end_ ≥ s.input.length by omega)]
  · by_cases hge : s.end_ ≥ s.input.length
    · rw [if_pos hge]
    · rw [if_neg hge, if_neg h]

/-- `readNumber` on a cursor that has just consumed a zero digit followed by
another digit: the scanner consumes the digit run, backs up to the digit after
the zero, and reports the leading-zero error without moving the state. -/
theorem readNumber_after_zero (s : Lexer)
    (h0 : s.input.getD (s.end_ - 1) 0 = 48) (hpos : 1 ≤ s.end_) (hposr : 1 ≤ s.endRunes)
    (hlt : s.end_ < s.input.length)
    (hd1 : 48 ≤ s.input.getD s.end_ 0) (hd2 : s.input.getD s.end_ 0 ≤ 57) :
    s.readNumber = (s.makeErrorTok,
      some ("Invalid number, unexpected digit after 0: " ++ s.describeNext ++ "."), s) := by
  have e1 : ({ s with end_ := s.end_ - 1, endRunes := s.endRunes - 1 } : Lexer).acceptByte [45]
      = (false, { s with end_ := s.end_ - 1, endRunes := s.endRunes - 1 }) := by
    apply acceptByte_no
    right
    intro hmem
    simp only [List.mem_singleton] at hmem
    omega
  have e2 : ({ s with end_ := s.end_ - 1, endRunes := s.endRunes - 1 } : Lexer).acceptByte [48]
      = (true, { s with end_ := s.end_ - 1 + 1, endRunes := s.endRunes - 1 + 1 }) :=
    acceptByte_yes _ _ (show s.end_ - 1 < s.input.length by omega)
      (show s.input.getD (s.end_ - 1) 0 ∈ [48] by simp only [List.mem_singleton]; omega)
  have e3 : ({ s with end_ := s.end_ - 1 + 1, endRunes := s.endRunes - 1 + 1 } : Lexer) = s := by
    have a : s.end_ - 1 + 1 = s.end_ := by omega
    have b : s.endRunes - 1 + 1 = s.endRunes := by omega
    rw [a, b]
  have hc : 1 ≤ s.acceptDigits.1 := acceptDigits_pos s hlt hd1 hd2
  simp only [Lexer.readNumber, e1, e2, e3]
  rw [if_pos (show s.acceptDigits.1 ≠ 0 by omega)]
  simp only [acceptDigits_spec]
  simp [Nat.add_sub_cancel]

end Lexer

namespace Lexer

/-- `readNumber` on a cursor that has just consumed a minus sign followed by a
zero digit and another digit: the scanner accepts the sign and the zero,
consumes the digit run, backs up to the digit after the zero, and reports the
leading-zero error there. -/
theorem readNumber_after_minus_zero (s : Lexer)
    (hm : s.input.getD (s.end_ - 1) 0 = 45) (hz : s.input.getD s.end_ 0 = 48)
    (hpos : 1 ≤ s.end_) (hposr : 1 ≤ s.endRunes)
    (hlt : s.end_ + 1 < s.input.length)
    (hd1 : 48 ≤ s.input.getD (s.end_ + 1) 0) (hd2 : s.input.getD (s.end_ + 1) 0 ≤ 57) :
    s.readNumber =
      (({ s with end_ := s.end_ + 1, endRunes := s.endRunes + 1 } : Lexer).makeErrorTok,
        some ("Invalid number, unexpected digit after 0: " ++
          ({ s with end_ := s.end_ + 1, endRunes := s.endRunes + 1 } : Lexer).describeNext ++ "."),
        { s with end_ := s.end_ + 1, endRunes := s.endRunes + 1 }) := by
  have e1 : ({ s with end_ := s.end_ - 1, endRunes := s.endRunes - 1 } : Lexer).acceptByte [45]
      = (true, { s with end_ := s.end_ - 1 + 1, endRunes := s.endRunes - 1 + 1 }) :=
    acceptByte_yes _ _ (show s.end_ - 1 < s.input.length by omega)
      (show s.input.getD (s.end_ - 1) 0 ∈ [45] by simp only [List.mem_singleton]; omega)
  have e3 : ({ s with end_ := s.end_ - 1 + 1, endRunes := s.endRunes - 1 + 1 } : Lexer) = s := by
    have a : s.end_ - 1 + 1 = s.end_ := by omega
    have b : s.endRunes - 1 + 1 = s.endRunes := by omega
    rw [a, b]
  have e2 : s.acceptByte [48]
      = (true, { s with end_ := s.end_ + 1, endRunes := s.endRunes + 1 }) :=
    acceptByte_yes _ _ (by omega)
      (show s.input.getD s.end_ 0 ∈ [48] by simp only [List.mem_singleton]; omega)
  have hc : 1 ≤ ({ s with end_ := s.end_ + 1, endRunes := s.endRunes + 1 } : Lexer).acceptDigits.1 :=
    acceptDigits_pos _ (by simpa using hlt) (by simpa using hd1) (by simpa using hd2)
  simp only [Lexer.readNumber, e1, e2, e3]
  rw [if_pos (show ({ s with end_ := s.end_ + 1, endRunes := s.endRunes + 1 } : Lexer).acceptDigits.1 ≠ 0 by omega)]
  simp only [acceptDigits_spec]
  simp [Nat.add_sub_cancel]

end Lexer

/-- Claim C6: for every numeric literal whose first digit (after an optional
minus sign) is `0` followed immediately by another digit `d`, `readToken`
returns an Invalid token with error message `Invalid number, unexpected digit
after 0: "X".` where `X` is the offending digit, and the reported position
(the token's `End` rune offset and its column) points at that offending digit:
column 2 without a sign, column 3 with one.  Scenario S7 (`0123`, message
quoting `1`, column 2) is the `sign = false`, `d = 49` instance. -/
theorem C6_leading_zero_error (sign : Bool) (d : Nat) (rest : List Nat) (hd1 : 48 ≤ d) (hd2 : d ≤ 57) :
    resTok ((Lexer.New ((if sign then [45] else []) ++ 48 :: d :: rest)).ReadToken) =
      some ⟨.Invalid, 0, if sign then 2 else 1, [], 1, if sign then 3 else 2⟩ ∧
    resErr ((Lexer.New ((if sign then [45] else []) ++ 48 :: d :: rest)).ReadToken) =
      some (some ("Invalid number, unexpected digit after 0: \"" ++ charStr d ++ "\".")) := by
  have lsplit : ("Invalid number, unexpected digit after 0: \"" : String) =
      "Invalid number, unexpected digit after 0: " ++ "\"" := rfl
  cases sign with
  | false =>
    simp only [Bool.false_eq_true, if_false, List.nil_append]
    have hws : (Lexer.New (48 :: d :: rest)).ws = Lexer.New (48 :: d :: rest) := by
      apply Lexer.ws_stop
      right
      simp only [Lexer.New, List.getD_cons_zero]
      exact ⟨by intro hor; rcases hor with h | h | h <;> omega, by omega, by omega, by omega⟩
    rw [Lexer.ReadToken_dispatch (Lexer.New (48 :: d :: rest)) 48 rfl hws
      (by simp [Lexer.New]) (by simp [Lexer.New]) (by omega)]
    rw [Lexer.dispatchRest_eq _ _ _ (Lexer.dispatchCore_number 48 _ (by omega))]
    rw [Lexer.resTok_ret, Lexer.resErr_ret]
    simp only [Lexer.New]
    norm_num
    rw [Lexer.readNumber_after_zero _ (by simp) (by simp) (by simp)
      (by simp) (by simpa using hd1) (by simpa using hd2)]
    rw [Lexer.describeNext, if_pos (by simp)]
    refine ⟨rfl, ?_⟩
    simp only [List.getD_cons_succ, List.getD_cons_zero]
    simp [String.append_assoc]
    rw [lsplit, String.append_assoc]
  | true =>
    simp only [eq_self_iff_true, if_true, List.cons_append, List.nil_append]
    have hws : (Lexer.New (45 :: 48 :: d :: rest)).ws = Lexer.New (45 :: 48 :: d :: rest) := by
      apply Lexer.ws_stop
      right
      simp only [Lexer.New, List.getD_cons_zero]
      exact ⟨by intro hor; rcases hor with h | h | h <;> omega, by omega, by omega, by omega⟩
    rw [Lexer.ReadToken_dispatch (Lexer.New (45 :: 48 :: d :: rest)) 45 rfl hws
      (by simp [Lexer.New]) (by simp [Lexer.New]) (by omega)]
    rw [Lexer.dispatchRest_eq _ _ _ (Lexer.dispatchCore_number 45 _ (by omega))]
    rw [Lexer.resTok_ret, Lexer.resErr_ret]
    simp only [Lexer.New]
    norm_num
    rw [Lexer.readNumber_after_minus_zero _ (by simp) (by simp) (by simp) (by simp)
      (by simp) (by simpa using hd1) (by simpa using hd2)]
    rw [Lexer.describeNext, if_pos (by simp)]
    refine ⟨rfl, ?_⟩
    simp only [List.getD_cons_succ, List.getD_cons_zero]
    simp [String.append_assoc]
    rw [lsplit, String.append_assoc]

/-- Claim C6 witness: the theorem at the input `0123` of scenario S7. -/
theorem C6_leading_zero_error_witness :
    (48 ≤ 49 ∧ 49 ≤ 57) ∧
    resTok ((Lexer.New [48, 49, 50, 51]).ReadToken) =
      some ⟨.Invalid, 0, 1, [], 1, 2⟩ ∧
    resErr ((Lexer.New [48, 49, 50, 51]).ReadToken) =
      some (some ("Invalid number, unexpected digit after 0: \"" ++ charStr 49 ++ "\".")) :=
  ⟨⟨by norm_num, by norm_num⟩,
   (C6_leading_zero_error false 49 [50, 51] (by norm_num) (by norm_num)).1,
   (C6_leading_zero_error false 49 [50, 51] (by norm_num) (by norm_num)).2⟩

namespace Lexer

theorem readName_kind (s : Lexer) : s.readName.1.kind = .Name := rfl

theorem readNumberTail_kind (s : Lexer) (float : Bool) :
    (s.readNumberTail float).1.kind = .Int ∨ (s.readNumberTail float).1.kind = .Float ∨
    (s.readNumberTail float).1.kind = .Invalid := by
  simp only [Lexer.readNumberTail]
  repeat' split
  all_goals simp [Lexer.makeToken, Lexer.makeErrorTok]

theorem readNumberFrac_kind (s : Lexer) :
    s.readNumberFrac.1.kind = .Int ∨ s.readNumberFrac.1.kind = .Float ∨
    s.readNumberFrac.1.kind = .Invalid := by
  simp only [Lexer.readNumberFrac]
  repeat' split
  all_goals first
    | simp [Lexer.makeErrorTok]
    | apply readNumberTail_kind

theorem readNumber_kind (s : Lexer) :
    s.readNumber.1.kind = .Int ∨ s.readNumber.1.kind = .Float ∨
    s.readNumber.1.kind = .Invalid := by
  simp only [Lexer.readNumber]
  repeat' split
  all_goals first
    | simp [Lexer.makeErrorTok]
    | apply readNumberFrac_kind

theorem readStringRun_kind (fuel : Nat) (s : Lexer) (buf : Option (List Nat)) :
    (Lexer.readStringRun fuel s buf).1.kind = .String ∨
    (Lexer.readStringRun fuel s buf).1.kind = .Invalid := by
  induction fuel generalizing s buf with
  | zero =>
    simp only [Lexer.readStringRun]
    simp [Lexer.makeErrorTok]
  | succ f ih =>
    simp only [Lexer.readStringRun]
    by_cases h1 : s.end_ < s.input.length
    case neg => rw [if_neg h1]; simp [Lexer.makeErrorTok]
    rw [if_pos h1]
    by_cases h2 : s.input.getD s.end_ 0 = 10 ∨ s.input.getD s.end_ 0 = 13
    case pos => rw [if_pos h2]; simp [Lexer.makeErrorTok]
    rw [if_neg h2]
    by_cases h3 : s.input.getD s.end_ 0 < 32 ∧ ¬s.input.getD s.end_ 0 = 9
    case pos => rw [if_pos h3]; simp [Lexer.makeErrorTok]
    rw [if_neg h3]
    by_cases h4 : s.input.getD s.end_ 0 = 34
    case pos => rw [if_pos h4]; simp [Lexer.makeToken]
    rw [if_neg h4]
    by_cases h5 : s.input.getD s.end_ 0 = 92
    case neg => rw [if_neg h5]; apply ih
    rw [if_pos h5]
    by_cases h6 : s.end_ + 1 ≥ s.input.length
    case pos => rw [if_pos h6]; simp [Lexer.makeErrorTok]
    rw [if_neg h6]
    by_cases h7 : s.input.getD (s.end_ + 1) 0 = 117
    case neg =>
      rw [if_neg h7]
      split
      · simp [Lexer.makeErrorTok]
      · apply ih
    rw [if_pos h7]
    by_cases h8 : s.end_ + 6 ≥ s.input.length
    case pos => rw [if_pos h8]; simp [Lexer.makeErrorTok]
    rw [if_neg h8]
    split
    · simp [Lexer.makeErrorTok]
    · apply ih

theorem readString_kind (s : Lexer) :
    s.readString.1.kind = .String ∨ s.readString.1.kind = .Invalid := by
  rw [Lexer.readString]
  apply readStringRun_kind

theorem readBlockStringRun_kind (fuel : Nat) (s : Lexer) (buf : List Nat)
    (t : Token) (e : Option String) (s' : Lexer)
    (h : Lexer.readBlockStringRun fuel s buf = .ok (t, e, s')) :
    t.kind = .BlockString ∨ t.kind = .Invalid := by
  induction fuel generalizing s buf t e s' with
  | zero =>
    simp only [Lexer.readBlockStringRun, Res.ok.injEq, Prod.mk.injEq] at h
    obtain ⟨rfl, -, -⟩ := h
    simp [Lexer.makeErrorTok]
  | succ f ih =>
    simp only [Lexer.readBlockStringRun] at h
    by_cases h1 : s.end_ < s.input.length
    case neg =>
      rw [if_neg h1] at h
      simp only [Res.ok.injEq, Prod.mk.injEq] at h
      obtain ⟨rfl, -, -⟩ := h
      simp [Lexer.makeErrorTok]
    rw [if_pos h1] at h
    by_cases h2 : s.input.getD s.end_ 0 = 34 ∧ s.end_ + 3 ≤ s.input.length ∧
        (s.input.drop s.end_).take 3 = [34, 34, 34]
    case pos =>
      rw [if_pos h2] at h
      simp only [Res.ok.injEq, Prod.mk.injEq] at h
      obtain ⟨rfl, -, -⟩ := h
      simp [Lexer.makeToken]
    rw [if_neg h2] at h
    by_cases h3 : s.input.getD s.end_ 0 < 32 ∧ ¬s.input.getD s.end_ 0 = 9 ∧
        ¬s.input.getD s.end_ 0 = 10 ∧ ¬s.input.getD s.end_ 0 = 13
    case pos =>
      rw [if_pos h3] at h
      simp only [Res.ok.injEq, Prod.mk.injEq] at h
      obtain ⟨rfl, -, -⟩ := h
      simp [Lexer.makeErrorTok]
    rw [if_neg h3] at h
    by_cases h4 : s.input.getD s.end_ 0 = 92 ∧ s.end_ + 4 ≤ s.input.length ∧
        (s.input.drop s.end_).take 4 = [92, 34, 34, 34]
    case pos =>
      rw [if_pos h4] at h
      exact ih _ _ _ _ _ h
    rw [if_neg h4] at h
    by_cases h5 : s.input.getD s.end_ 0 = 13
    case neg =>
      rw [if_neg h5] at h
      exact ih _ _ _ _ _ h
    rw [if_pos h5] at h
    by_cases h6 : s.end_ + 1 ≤ s.input.length
    case neg =>
      rw [if_neg h6] at h
      exact ih _ _ _ _ _ h
    rw [if_pos h6] at h
    split at h
    · cases h
    · exact ih _ _ _ _ _ h

theorem readBlockString_kind (s : Lexer) (t : Token) (e : Option String) (s' : Lexer)
    (h : s.readBlockString = .ok (t, e, s')) :
    t.kind = .BlockString ∨ t.kind = .Invalid := by
  rw [Lexer.readBlockString] at h
  exact readBlockStringRun_kind _ _ _ _ _ _ h

end Lexer

namespace Lexer

theorem dispatchCore_kind (r : Nat) (s : Lexer) (t : Token) (e : Option String)
    (s' : Lexer) (h : Lexer.dispatchCore r s = .ok (t, e, s')) :
    t.kind ≠ .Comment ∧ t.kind ≠ .EOF := by
  simp only [Lexer.dispatchCore] at h
  by_cases h33 : r = 33
  case pos =>
    rw [if_pos h33] at h
    simp only [Res.ok.injEq, Prod.mk.injEq] at h
    obtain ⟨rfl, -, -⟩ := h
    simp [Lexer.makeToken]
  rw [if_neg h33] at h
  by_cases h36 : r = 36
  case pos =>
    rw [if_pos h36] at h
    simp only [Res.ok.injEq, Prod.mk.injEq] at h
    obtain ⟨rfl, -, -⟩ := h
    simp [Lexer.makeToken]
  rw [if_neg h36] at h
  by_cases h38 : r = 38
  case pos =>
    rw [if_pos h38] at h
    simp only [Res.ok.injEq, Prod.mk.injEq] at h
    obtain ⟨rfl, -, -⟩ := h
    simp [Lexer.makeToken]
  rw [if_neg h38] at h
  by_cases h40 : r = 40
  case pos =>
    rw [if_pos h40] at h
    simp only [Res.ok.injEq, Prod.mk.injEq] at h
    obtain ⟨rfl, -, -⟩ := h
    simp [Lexer.makeToken]
  rw [if_neg h40] at h
  by_cases h41 : r = 41
  case pos =>
    rw [if_pos h41] at h
    simp only [Res.ok.injEq, Prod.mk.injEq] at h
    obtain ⟨rfl, -, -⟩ := h
    simp [Lexer.makeToken]
  rw [if_neg h41] at h
  by_cases h46 : r = 46
  case pos =>
    rw [if_pos h46] at h
    split at h <;>
      (simp only [Res.ok.injEq, Prod.mk.injEq] at h
       obtain ⟨rfl, -, -⟩ := h
       simp [Lexer.makeToken, Lexer.makeErrorTok])
  rw [if_neg h46] at h
  by_cases h58 : r = 58
  case pos =>
    rw [if_pos h58] at h
    simp only [Res.ok.injEq, Prod.mk.injEq] at h
    obtain ⟨rfl, -, -⟩ := h
    simp [Lexer.makeToken]
  rw [if_neg h58] at h
  by_cases h61 : r = 61
  case pos =>
    rw [if_pos h61] at h
    simp only [Res.ok.injEq, Prod.mk.injEq] at h
    obtain ⟨rfl, -, -⟩ := h
    simp [Lexer.makeToken]
  rw [if_neg h61] at h
  by_cases h64 : r = 64
  case pos =>
    rw [if_pos h64] at h
    simp only [Res.ok.injEq, Prod.mk.injEq] at h
    obtain ⟨rfl, -, -⟩ := h
    simp [Lexer.makeToken]
  rw [if_neg h64] at h
  by_cases h91 : r = 91
  case pos =>
    rw [if_pos h91] at h
    simp only [Res.ok.injEq, Prod.mk.injEq] at h
    obtain ⟨rfl, -, -⟩ := h
    simp [Lexer.makeToken]
  rw [if_neg h91] at h
  by_cases h93 : r = 93
  case pos =>
    rw [if_pos h93] at h
    simp only [Res.ok.injEq, Prod.mk.injEq] at h
    obtain ⟨rfl, -, -⟩ := h
    simp [Lexer.makeToken]
  rw [if_neg h93] at h
  by_cases h123 : r = 123
  case pos =>
    rw [if_pos h123] at h
    simp only [Res.ok.injEq, Prod.mk.injEq] at h
    obtain ⟨rfl, -, -⟩ := h
    simp [Lexer.makeToken]
  rw [if_neg h123] at h
  by_cases h125 : r = 125
  case pos =>
    rw [if_pos h125] at h
    simp only [Res.ok.injEq, Prod.mk.injEq] at h
    obtain ⟨rfl, -, -⟩ := h
    simp [Lexer.makeToken]
  rw [if_neg h125] at h
  by_cases h124 : r = 124
  case pos =>
    rw [if_pos h124] at h
    simp only [Res.ok.injEq, Prod.mk.injEq] at h
    obtain ⟨rfl, -, -⟩ := h
    simp [Lexer.makeToken]
  rw [if_neg h124] at h
  by_cases hnm : r = 95 ∨ 65 ≤ r ∧ r ≤ 90 ∨ 97 ≤ r ∧ r ≤ 122
  case pos =>
    rw [if_pos hnm] at h
    simp only [Res.ok.injEq] at h
    have ht : s.readName.1 = t := congrArg Prod.fst h
    rw [← ht, readName_kind s]
    simp
  rw [if_neg hnm] at h
  by_cases hdg : r = 45 ∨ 48 ≤ r ∧ r ≤ 57
  case pos =>
    rw [if_pos hdg] at h
    simp only [Res.ok.injEq] at h
    have ht : s.readNumber.1 = t := congrArg Prod.fst h
    rcases readNumber_kind s with hk | hk | hk <;> rw [← ht, hk] <;> simp
  rw [if_neg hdg] at h
  by_cases hq : r = 34
  case pos =>
    rw [if_pos hq] at h
    split at h
    · rcases readBlockString_kind _ _ _ _ h with hk | hk <;> rw [hk] <;> simp
    · simp only [Res.ok.injEq] at h
      have ht : s.readString.1 = t := congrArg Prod.fst h
      rcases readString_kind s with hk | hk <;> rw [← ht, hk] <;> simp
  rw [if_neg hq] at h
  split_ifs at h <;>
    (simp only [Res.ok.injEq, Prod.mk.injEq] at h
     obtain ⟨rfl, -, -⟩ := h
     simp [Lexer.makeErrorTok])

end Lexer

/-- The width returned by `decodeRune` never exceeds the length of its input. -/
theorem decodeRune_width_le (bs : List Nat) : (decodeRune bs).2 ≤ bs.length := by
  match bs with
  | [] => simp [decodeRune]
  | b0 :: rest =>
    simp only [decodeRune]
    split_ifs
    · simp
    · rcases rest with - | ⟨b1, rest⟩
      · simp
      · simp only
        split_ifs <;> simp
    · rcases rest with - | ⟨b1, - | ⟨b2, rest⟩⟩
      · simp
      · simp
      · simp only
        split_ifs <;> simp
    · rcases rest with - | ⟨b1, - | ⟨b2, - | ⟨b3, rest⟩⟩⟩
      · simp
      · simp
      · simp
      · simp only
        split_ifs <;> simp
    · simp

namespace Lexer

/-- The whitespace skipper changes only the cursor and line counters. -/
theorem wsRun_frame (fuel : Nat) (s : Lexer) :
    (Lexer.wsRun fuel s).input = s.input ∧ (Lexer.wsRun fuel s).start = s.start ∧
    (Lexer.wsRun fuel s).startRunes = s.startRunes ∧
    (Lexer.wsRun fuel s).peeked = s.peeked ∧
    (Lexer.wsRun fuel s).peekToken = s.peekToken ∧
    (Lexer.wsRun fuel s).peekError = s.peekError ∧
    (Lexer.wsRun fuel s).lastToken = s.lastToken ∧
    s.end_ ≤ (Lexer.wsRun fuel s).end_ ∧
    (s.end_ ≤ s.input.length → (Lexer.wsRun fuel s).end_ ≤ s.input.length) := by
  induction fuel generalizing s with
  | zero => simp [Lexer.wsRun]
  | succ f ih =>
    simp only [Lexer.wsRun]
    by_cases h1 : s.end_ < s.input.length
    case neg => rw [if_neg h1]; simp
    rw [if_pos h1]
    by_cases h2 : s.input.getD s.end_ 0 = 9 ∨ s.input.getD s.end_ 0 = 32 ∨
        s.input.getD s.end_ 0 = 44
    case pos =>
      rw [if_pos h2]
      obtain ⟨f1, f2, f3, f4, f5, f6, f7, f8, f9⟩ := ih
        { s with end_ := s.end_ + 1, endRunes := s.endRunes + 1 }
      exact ⟨f1, f2, f3, f4, f5, f6, f7, by simp at f8 ⊢; omega,
        fun hb => by simp at f9 ⊢; omega⟩
    rw [if_neg h2]
    by_cases h3 : s.input.getD s.end_ 0 = 10
    case pos =>
      rw [if_pos h3]
      obtain ⟨f1, f2, f3, f4, f5, f6, f7, f8, f9⟩ := ih
        { s with end_ := s.end_ + 1, endRunes := s.endRunes + 1,
                 line := s.line + 1, lineStartRunes := s.endRunes + 1 }
      exact ⟨f1, f2, f3, f4, f5, f6, f7, by simp at f8 ⊢; omega,
        fun hb => by simp at f9 ⊢; omega⟩
    rw [if_neg h3]
    by_cases h4 : s.input.getD s.end_ 0 = 13
    case pos =>
      rw [if_pos h4]
      by_cases h5 : s.end_ + 1 < s.input.length ∧ s.input.getD (s.end_ + 1) 0 = 10
      · rw [if_pos (by simpa using h5)]
        obtain ⟨f1, f2, f3, f4, f5', f6, f7, f8, f9⟩ := ih
          { s with end_ := s.end_ + 1 + 1, endRunes := s.endRunes + 1 + 1,
                   line := s.line + 1, lineStartRunes := s.endRunes + 1 }
        exact ⟨f1, f2, f3, f4, f5', f6, f7, by simp at f8 ⊢; omega,
          fun hb => by simp at f9 ⊢; omega⟩
      · rw [if_neg (by simpa using h5)]
        obtain ⟨f1, f2, f3, f4, f5', f6, f7, f8, f9⟩ := ih
          { s with end_ := s.end_ + 1, endRunes := s.endRunes + 1,
                   line := s.line + 1, lineStartRunes := s.endRunes + 1 }
        exact ⟨f1, f2, f3, f4, f5', f6, f7, by simp at f8 ⊢; omega,
          fun hb => by simp at f9 ⊢; omega⟩
    rw [if_neg h4]
    by_cases h6 : s.input.getD s.end_ 0 = 0xEF
    case neg => rw [if_neg h6]; simp
    rw [if_pos h6]
    by_cases h7 : s.end_ + 2 < s.input.length ∧ s.input.getD (s.end_ + 1) 0 = 0xBB ∧
        s.input.getD (s.end_ + 2) 0 = 0xBF
    case neg => rw [if_neg h7]; simp
    rw [if_pos h7]
    obtain ⟨f1, f2, f3, f4, f5, f6, f7', f8, f9⟩ := ih
      { s with end_ := s.end_ + 3, endRunes := s.endRunes + 1 }
    exact ⟨f1, f2, f3, f4, f5, f6, f7', by simp at f8 ⊢; omega,
      fun hb => by simp at f9 ⊢; omega⟩

/-- Wrapper form of `wsRun_frame`. -/
theorem ws_frame (s : Lexer) :
    s.ws.input = s.input ∧ s.ws.start = s.start ∧ s.ws.startRunes = s.startRunes ∧
    s.ws.peeked = s.peeked ∧ s.ws.peekToken = s.peekToken ∧
    s.ws.peekError = s.peekError ∧ s.ws.lastToken = s.lastToken ∧
    s.end_ ≤ s.ws.end_ ∧ (s.end_ ≤ s.input.length → s.ws.end_ ≤ s.input.length) :=
  wsRun_frame _ s

/-- The comment reader changes only the cursor. -/
theorem readCommentRun_frame (fuel : Nat) (s : Lexer) :
    (Lexer.readCommentRun fuel s).input = s.input ∧
    (Lexer.readCommentRun fuel s).start = s.start ∧
    (Lexer.readCommentRun fuel s).startRunes = s.startRunes ∧
    (Lexer.readCommentRun fuel s).peeked = s.peeked ∧
    (Lexer.readCommentRun fuel s).peekToken = s.peekToken ∧
    (Lexer.readCommentRun fuel s).peekError = s.peekError ∧
    (Lexer.readCommentRun fuel s).lastToken = s.lastToken ∧
    (Lexer.readCommentRun fuel s).line = s.line ∧
    (Lexer.readCommentRun fuel s).lineStartRunes = s.lineStartRunes ∧
    s.end_ ≤ (Lexer.readCommentRun fuel s).end_ ∧
    (s.end_ ≤ s.input.length → (Lexer.readCommentRun fuel s).end_ ≤ s.input.length) := by
  induction fuel generalizing s with
  | zero => simp [Lexer.readCommentRun]
  | succ f ih =>
    simp only [Lexer.readCommentRun]
    by_cases h1 : s.end_ < s.input.length
    case neg => rw [if_neg h1]; simp
    rw [if_pos h1]
    by_cases h2 : 0x1F < (s.peek).1 ∨ (s.peek).1 = 9
    case neg => rw [if_neg h2]; simp
    rw [if_pos h2]
    have hw : (s.peek).2 ≤ s.input.length - s.end_ := by
      have := decodeRune_width_le (s.input.drop s.end_)
      simpa [Lexer.peek] using this
    obtain ⟨f1, f2, f3, f4, f5, f6, f7, f8, f9, f10, f11⟩ := ih
      { s with end_ := s.end_ + (s.peek).2, endRunes := s.endRunes + 1 }
    exact ⟨f1, f2, f3, f4, f5, f6, f7, f8, f9, by simp at f10 ⊢; omega,
      fun hb => by simp at f11 ⊢; omega⟩

end Lexer

namespace Lexer

/-- Lift of `dispatchCore_kind` through the `lastToken` wrapper. -/
theorem dispatchRest_kind (r : Nat) (s : Lexer) (t : Token) (e : Option String)
    (s' : Lexer) (h : Lexer.dispatchRest r s = .ok (t, e, s')) :
    t.kind ≠ .Comment ∧ t.kind ≠ .EOF := by
  unfold Lexer.dispatchRest at h
  split at h
  case _ p heq =>
    obtain ⟨t0, e0, s0⟩ := p
    simp only [Lexer.ret, Res.ok.injEq, Prod.mk.injEq] at h
    obtain ⟨rfl, -, -⟩ := h
    exact dispatchCore_kind _ _ _ _ _ heq
  · cases h
  · cases h

/-- Skipping a comment does not touch the peek cache. -/
theorem readComment_peeked (s : Lexer) : s.readComment.2.2.peeked = s.peeked := by
  rw [Lexer.readComment]
  exact (readCommentRun_frame _ s).2.2.2.1

/-- No `ok` result of `ReadTokenAux` carries a Comment token, provided any
cached peek is itself not a Comment (an invariant of reachable states, since
the cache is filled from `ReadTokenAux` results). -/
theorem readTokenAux_no_comment (fuel : Nat) (s : Lexer) (t : Token)
    (e : Option String) (s' : Lexer)
    (hp : s.peeked = true → s.peekToken.kind ≠ .Comment)
    (h : Lexer.ReadTokenAux fuel s = .ok (t, e, s')) : t.kind ≠ .Comment := by
  induction fuel generalizing s t e s' with
  | zero => cases h
  | succ f ih =>
    simp only [Lexer.ReadTokenAux] at h
    by_cases hpk : s.peeked = true
    · rw [if_pos hpk] at h
      simp only [Lexer.ret, Res.ok.injEq, Prod.mk.injEq] at h
      obtain ⟨rfl, -, -⟩ := h
      exact hp hpk
    · rw [if_neg hpk] at h
      split at h
      · simp only [Lexer.ret, Res.ok.injEq, Prod.mk.injEq] at h
        obtain ⟨rfl, -, -⟩ := h
        simp [Lexer.makeToken]
      · split at h
        · refine ih _ _ _ _ ?_ h
          intro hc
          rw [readComment_peeked] at hc
          simp only at hc
          rw [(ws_frame s).2.2.2.1] at hc
          exact absurd hc hpk
        · exact (dispatchRest_kind _ _ _ _ _ h).1

end Lexer

/-- Claim C8: readToken never returns a token of kind Comment (general part,
for any state whose peek cache does not hold a Comment, which is an invariant
of reachable states), and for input `# hi\n42` the first token surfaced is
`Int "42"` on line 2, column 1 (scenario S6). -/
theorem C8_comments_skipped :
    (∀ (fuel : Nat) (s : Lexer) (t : Token) (e : Option String) (s' : Lexer),
      (s.peeked = true → s.peekToken.kind ≠ .Comment) →
      Lexer.ReadTokenAux fuel s = .ok (t, e, s') → t.kind ≠ .Comment) ∧
    resTok ((Lexer.New [35, 32, 104, 105, 10, 52, 50]).ReadToken) =
      some ⟨.Int, 5, 7, [52, 50], 2, 1⟩ :=
  ⟨fun fuel s t e s' hp h => Lexer.readTokenAux_no_comment fuel s t e s' hp h, by decide⟩

/-- Claim C8 witness: the general part applied to the input consisting of a
comment sign and a comment body byte, whose first token is EOF. -/
theorem C8_comments_skipped_witness :
    (⟨.EOF, 2, 2, [], 1, 3⟩ : Token).kind ≠ TokType.Comment :=
  C8_comments_skipped.1 3 (Lexer.New [35, 97]) ⟨.EOF, 2, 2, [], 1, 3⟩ none
    ⟨[35, 97], 2, 2, 2, 2, 1, 0, false, ⟨.Invalid, 0, 0, [], 0, 0⟩, none,
      ⟨.EOF, 2, 2, [], 1, 3⟩⟩
    (by decide) (by decide)

namespace Lexer

/-- Skipping a comment preserves the peek flag and input and keeps the cursor
in bounds. -/
theorem readComment_state (s : Lexer) :
    s.readComment.2.2.peeked = s.peeked ∧ s.readComment.2.2.input = s.input ∧
    (s.end_ ≤ s.input.length → s.readComment.2.2.end_ ≤ s.input.length) := by
  rw [Lexer.readComment]
  obtain ⟨g1, -, -, g4, -, -, -, -, -, -, g11⟩ := readCommentRun_frame (s.input.length + 1) s
  exact ⟨g4, g1, g11⟩

/-- When `ReadTokenAux` returns an EOF token from an unpeeked in-bounds state,
the resulting state is parked at end of input with `start = end`, and the
token is the EOF token of that state. -/
theorem readTokenAux_eof (fuel : Nat) (s : Lexer) (t : Token) (e : Option String)
    (s' : Lexer) (hp : s.peeked = false) (hb : s.end_ ≤ s.input.length)
    (h : Lexer.ReadTokenAux fuel s = .ok (t, e, s')) (hk : t.kind = .EOF) :
    e = none ∧ s'.peeked = false ∧ s'.start = s'.end_ ∧ s'.startRunes = s'.endRunes ∧
    s'.end_ = s'.input.length ∧ s'.lastToken = t ∧
    t = ⟨.EOF, s'.startRunes, s'.endRunes, [], s'.line,
          s'.startRunes - s'.lineStartRunes + 1⟩ := by
  induction fuel generalizing s t e s' with
  | zero => cases h
  | succ f ih =>
    simp only [Lexer.ReadTokenAux] at h
    rw [if_neg (by simp [hp])] at h
    obtain ⟨w1, w2, w3, w4, w5, w6, w7, w8, w9⟩ := ws_frame s
    split at h
    case isTrue hle =>
      simp only [Lexer.ret, Res.ok.injEq, Prod.mk.injEq] at h
      obtain ⟨rfl, rfl, rfl⟩ := h
      have hend : s.ws.end_ = s.ws.input.length := by
        rw [w1] at hle ⊢
        omega
      refine ⟨rfl, by simpa [w4] using hp, by simp [hend], rfl, by simp [hend], rfl, ?_⟩
      simp only [Lexer.makeToken, Lexer.slice]
      simp [hend]
    case isFalse hle =>
      split at h
      · obtain ⟨c1, c2, c3⟩ := readComment_state { s.ws with start := s.ws.end_, startRunes := s.ws.endRunes, end_ := s.ws.end_ + 1, endRunes := s.ws.endRunes + 1 }
        simp only at c1 c2 c3
        refine ih _ _ _ _ ?_ ?_ h hk
        · rw [c1, w4, hp]
        · rw [c2]
          refine c3 ?_
          simp only [not_le] at hle
          omega
      · exact absurd hk (dispatchRest_kind _ _ _ _ _ h).2

end Lexer

namespace Lexer

/-- A state parked at end of input with `start = end` is a fixed point of
`ReadToken`: it returns its own EOF token and does not change. -/
theorem readToken_eof_fixpoint (s' : Lexer) (t : Token)
    (hp : s'.peeked = false) (hse : s'.start = s'.end_) (hsr : s'.startRunes = s'.endRunes)
    (he : s'.end_ = s'.input.length) (hl : s'.lastToken = t)
    (ht : t = ⟨.EOF, s'.startRunes, s'.endRunes, [], s'.line,
      s'.startRunes - s'.lineStartRunes + 1⟩) :
    s'.ReadToken = .ok (t, none, s') := by
  have hws : s'.ws = s' := ws_stop s' (Or.inl (by omega))
  simp only [Lexer.ReadToken, Lexer.ReadTokenAux, Lexer.ret]
  rw [if_neg (show ¬(s'.peeked = true) by simp [hp]), hws,
    if_pos (show s'.input.length ≤ s'.end_ by omega)]
  have hv : (({ s' with start := s'.end_, startRunes := s'.endRunes } : Lexer).makeToken .EOF) = t := by
    simp only [Lexer.makeToken, Lexer.slice, ht, hsr]
    simp
  rw [hv]
  have hs : ({ s' with start := s'.end_, startRunes := s'.endRunes, lastToken := t } : Lexer) = s' := by
    apply Lexer.ext <;> simp [hse, hsr, hl]
  rw [hs]

end Lexer

/-- Claim C9: once readToken has returned a token of kind EOF (from a state
with no cached peek and an in-bounds cursor, as every reachable state has),
every subsequent readToken call returns the same EOF token again and leaves
the state unchanged. -/
theorem C9_eof_idempotent (s : Lexer) (t : Token) (e : Option String) (s' : Lexer)
    (hp : s.peeked = false) (hb : s.end_ ≤ s.input.length)
    (h : s.ReadToken = .ok (t, e, s')) (hk : t.kind = .EOF) :
    ∀ n, readIter n s' = .ok (t, none, s') := by
  obtain ⟨-, p2, p3, p4, p5, p6, p7⟩ :=
    Lexer.readTokenAux_eof (s.input.length + 1) s t e s' hp hb h hk
  have hfix := Lexer.readToken_eof_fixpoint s' t p2 p3 p4 p5 p6 p7
  intro n
  induction n with
  | zero => exact hfix
  | succ m ihm =>
    rw [readIter, hfix]
    exact ihm

/-- Claim C9 witness: the theorem applied to a fresh lexer over the empty
input, iterated once past the first EOF. -/
theorem C9_eof_idempotent_witness :
    readIter 1 ⟨[], 0, 0, 0, 0, 1, 0, false, ⟨.Invalid, 0, 0, [], 0, 0⟩, none,
        ⟨.EOF, 0, 0, [], 1, 1⟩⟩ =
      .ok (⟨.EOF, 0, 0, [], 1, 1⟩, none,
        ⟨[], 0, 0, 0, 0, 1, 0, false, ⟨.Invalid, 0, 0, [], 0, 0⟩, none,
          ⟨.EOF, 0, 0, [], 1, 1⟩⟩) :=
  C9_eof_idempotent (Lexer.New []) ⟨.EOF, 0, 0, [], 1, 1⟩ none
    ⟨[], 0, 0, 0, 0, 1, 0, false, ⟨.Invalid, 0, 0, [], 0, 0⟩, none, ⟨.EOF, 0, 0, [], 1, 1⟩⟩
    (by decide) (by decide) (by decide) (by decide) 1

theorem getD_drop (l : List Nat) (n m d : Nat) : (l.drop n).getD m d = l.getD (n + m) d := by
  simp [List.getD_eq_getElem?_getD, List.getElem?_drop]

theorem encodeAll_append (a b : List Nat) :
    encodeAll (a ++ b) = encodeAll a ++ encodeAll b := by
  simp [encodeAll]

theorem encodeAll_cons (c : Nat) (l : List Nat) :
    encodeAll (c :: l) = utf8Encode c ++ encodeAll l := by
  simp [encodeAll]

theorem utf8Encode_length_pos (c : Nat) : 1 ≤ (utf8Encode c).length := by
  rw [utf8Encode]
  split_ifs <;> simp

theorem utf8Encode_ascii (c : Nat) (h : c < 0x80) : utf8Encode c = [c] := by
  rw [utf8Encode, if_pos h]

theorem utf8Encode_head_ge (c : Nat) (h : ¬c < 0x80) :
    0xC0 ≤ (utf8Encode c).getD 0 0 := by
  rw [utf8Encode, if_neg h]
  split_ifs <;> simp <;> omega

/-- Decoding an encoded scalar value from the head of any byte stream returns
the value and its width. -/
theorem decode_encode (c : Nat) (rest : List Nat) (h1 : c < 0x110000)
    (h2 : ¬(0xD800 ≤ c ∧ c < 0xE000)) :
    decodeRune (utf8Encode c ++ rest) = (c, (utf8Encode c).length) := by
  rw [utf8Encode]
  by_cases a1 : c < 0x80
  · rw [if_pos a1]
    simp only [List.cons_append, List.nil_append, decodeRune]
    rw [if_pos a1]
    simp
  · rw [if_neg a1]
    by_cases a2 : c < 0x800
    · rw [if_pos a2]
      simp only [List.cons_append, List.nil_append, decodeRune]
      rw [if_neg (show ¬(0xC0 + c / 0x40 < 0x80) by omega),
        if_pos (show (decide (0xC2 ≤ 0xC0 + c / 0x40) && decide (0xC0 + c / 0x40 ≤ 0xDF)) = true by
          simp; omega),
        if_pos (show isCont (0x80 + c % 0x40) = true by simp [isCont]; omega)]
      simp only [Prod.mk.injEq]
      constructor
      · omega
      · simp
    · rw [if_neg a2]
      by_cases a3 : c < 0x10000
      · rw [if_pos a3]
        simp only [List.cons_append, List.nil_append, decodeRune]
        rw [if_neg (show ¬(0xE0 + c / 0x1000 < 0x80) by omega),
          if_neg (show ¬((decide (0xC2 ≤ 0xE0 + c / 0x1000) &&
            decide (0xE0 + c / 0x1000 ≤ 0xDF)) = true) by simp; omega),
          if_pos (show (decide (0xE0 ≤ 0xE0 + c / 0x1000) &&
            decide (0xE0 + c / 0x1000 ≤ 0xEF)) = true by simp; omega),
          if_pos (show (accept3 (0xE0 + c / 0x1000) (0x80 + (c / 0x40) % 0x40) &&
            isCont (0x80 + c % 0x40)) = true by
              simp [accept3, isCont]; omega)]
        simp only [Prod.mk.injEq]
        constructor
        · omega
        · simp
      · rw [if_neg a3]
        simp only [List.cons_append, List.nil_append, decodeRune]
        rw [if_neg (show ¬(0xF0 + c / 0x40000 < 0x80) by omega),
          if_neg (show ¬((decide (0xC2 ≤ 0xF0 + c / 0x40000) &&
            decide (0xF0 + c / 0x40000 ≤ 0xDF)) = true) by simp; omega),
          if_neg (show ¬((decide (0xE0 ≤ 0xF0 + c / 0x40000) &&
            decide (0xF0 + c / 0x40000 ≤ 0xEF)) = true) by simp; omega),
          if_pos (show (decide (0xF0 ≤ 0xF0 + c / 0x40000) &&
            decide (0xF0 + c / 0x40000 ≤ 0xF4)) = true by simp; omega),
          if_pos (show (accept4 (0xF0 + c / 0x40000) (0x80 + (c / 0x1000) % 0x40) &&
            isCont (0x80 + (c / 0x40) % 0x40) && isCont (0x80 + c % 0x40)) = true by
              simp [accept4, isCont]; omega)]
        simp only [Prod.mk.injEq]
        constructor
        · omega
        · simp

theorem encLen_zero (cps : List Nat) : encLen cps 0 = 0 := rfl

theorem encLen_le (cps : List Nat) (k k' : Nat) (h : k ≤ k') :
    encLen cps k ≤ encLen cps k' := by
  unfold encLen
  conv_rhs => rw [← List.take_append_drop k (cps.take k'), List.take_take,
    Nat.min_eq_left h]
  rw [encodeAll_append, List.length_append]
  omega

theorem encLen_succ (cps : List Nat) (k : Nat) (h : k < cps.length) :
    encLen cps (k + 1) = encLen cps k + (utf8Encode (cps.getD k 0)).length := by
  unfold encLen
  rw [List.take_succ, List.getElem?_eq_getElem h, encodeAll_append, List.length_append]
  simp [encodeAll, List.getD_eq_getElem?_getD, List.getElem?_eq_getElem h]

theorem valid_getD (cps : List Nat) (hv : validCps cps = true) (k : Nat)
    (h : k < cps.length) :
    cps.getD k 0 < 0x110000 ∧ ¬(0xD800 ≤ cps.getD k 0 ∧ cps.getD k 0 < 0xE000) := by
  have hmem : cps.getD k 0 ∈ cps := by
    rw [List.getD_eq_getElem?_getD, List.getElem?_eq_getElem h]
    exact List.getElem_mem _
  have := List.all_eq_true.mp hv _ hmem
  simp only [Bool.and_eq_true, decide_eq_true_eq, Bool.not_eq_true'] at this
  refine ⟨this.1, ?_⟩
  intro ⟨a, b⟩
  have h2 := this.2
  simp only [Bool.and_eq_true, decide_eq_true_eq, Bool.and_eq_false_iff,
    decide_eq_false_iff_not] at h2
  rcases h2 with h2 | h2 <;> omega

theorem drop_encLen (cps : List Nat) (k : Nat) (h : k ≤ cps.length) :
    (encodeAll cps).drop (encLen cps k) = encodeAll (cps.drop k) := by
  have h0 : encodeAll cps = encodeAll (cps.take k) ++ encodeAll (cps.drop k) := by
    rw [← encodeAll_append, List.take_append_drop]
  simp only [encLen]
  conv_lhs => rw [h0]
  rw [List.drop_left]

theorem take_encLen (cps : List Nat) (k : Nat) :
    (encodeAll cps).take (encLen cps k) = encodeAll (cps.take k) := by
  have h0 : encodeAll cps = encodeAll (cps.take k) ++ encodeAll (cps.drop k) := by
    rw [← encodeAll_append, List.take_append_drop]
  simp only [encLen]
  conv_lhs => rw [h0]
  rw [List.take_left]

theorem encLen_total (cps : List Nat) : encLen cps cps.length = (encodeAll cps).length := by
  rw [encLen, List.take_length]

theorem pos_lt_len (cps : List Nat) (n r : Nat) (hP : Pos cps n r)
    (h : n < (encodeAll cps).length) : r < cps.length := by
  obtain ⟨h1, h2⟩ := hP
  rcases Nat.lt_or_ge r cps.length with hlt | hge
  · exact hlt
  · have : r = cps.length := by omega
    subst this
    rw [encLen_total] at h2
    omega

theorem pos_le_total (cps : List Nat) (n r : Nat) (hP : Pos cps n r) :
    n ≤ (encodeAll cps).length := by
  obtain ⟨h1, h2⟩ := hP
  rw [h2, ← encLen_total]
  exact encLen_le cps r cps.length h1

/-- Decoding at a boundary yields the code point there and its width. -/
theorem decode_at (cps : List Nat) (hv : validCps cps = true) (k : Nat)
    (h : k < cps.length) :
    decodeRune ((encodeAll cps).drop (encLen cps k)) =
      (cps.getD k 0, (utf8Encode (cps.getD k 0)).length) := by
  rw [drop_encLen cps k (le_of_lt h), List.drop_eq_getElem_cons h]
  obtain ⟨v1, v2⟩ := valid_getD cps hv k h
  rw [show cps[k] = cps.getD k 0 by
    simp [List.getD_eq_getElem?_getD, List.getElem?_eq_getElem h]]
  rw [encodeAll_cons]
  exact decode_encode _ _ v1 v2

/-- The byte at a boundary is the first byte of the code point there. -/
theorem byte_at (cps : List Nat) (k : Nat) (h : k < cps.length) :
    (encodeAll cps).getD (encLen cps k) 0 = (utf8Encode (cps.getD k 0)).getD 0 0 := by
  have h0 : (encodeAll cps).getD (encLen cps k) 0 =
      ((encodeAll cps).drop (encLen cps k)).getD 0 0 := by
    simp [getD_drop]
  rw [h0, drop_encLen cps k (le_of_lt h), List.drop_eq_getElem_cons h]
  rw [show cps[k] = cps.getD k 0 by
    simp [List.getD_eq_getElem?_getD, List.getElem?_eq_getElem h]]
  rw [encodeAll_cons]
  rcases hsh : utf8Encode (cps.getD k 0) with - | ⟨b, bs⟩
  · have := utf8Encode_length_pos (cps.getD k 0)
    rw [hsh] at this
    simp at this
  · simp

/-- Advancing one ASCII byte from a boundary is the next boundary, and the
code point there is that byte. -/
theorem pos_step_ascii (cps : List Nat) (hv : validCps cps = true) (n r b : Nat)
    (hP : Pos cps n r) (hlt : n < (encodeAll cps).length)
    (hb : (encodeAll cps).getD n 0 = b) (ha : b < 0x80) :
    Pos cps (n + 1) (r + 1) ∧ cps.getD r 0 = b := by
  have hr : r < cps.length := pos_lt_len cps n r hP hlt
  obtain ⟨h1, h2⟩ := hP
  subst h2
  have hB := byte_at cps r hr
  rw [hb] at hB
  have hcp : cps.getD r 0 = b := by
    by_cases hc : cps.getD r 0 < 0x80
    · rw [utf8Encode_ascii _ hc] at hB
      simpa using hB.symm
    · have := utf8Encode_head_ge _ hc
      omega
  refine ⟨⟨by omega, ?_⟩, hcp⟩
  rw [encLen_succ cps r hr, hcp, utf8Encode_ascii _ (by omega)]
  simp

/-- Advancing by the decoded width from a boundary is the next boundary. -/
theorem pos_step_decode (cps : List Nat) (hv : validCps cps = true) (n r : Nat)
    (hP : Pos cps n r) (hlt : n < (encodeAll cps).length) :
    Pos cps (n + (decodeRune ((encodeAll cps).drop n)).2) (r + 1) := by
  have hr : r < cps.length := pos_lt_len cps n r hP hlt
  obtain ⟨h1, h2⟩ := hP
  subst h2
  rw [decode_at cps hv r hr]
  exact ⟨by omega, by rw [encLen_succ cps r hr]⟩

/-- Advancing over the three BOM bytes from a boundary is the next boundary
(the code point there must be U+FEFF, whose encoding is exactly those three
bytes). -/
theorem pos_step_bom (cps : List Nat) (hv : validCps cps = true) (n r : Nat)
    (hP : Pos cps n r) (hlt : n < (encodeAll cps).length)
    (hb0 : (encodeAll cps).getD n 0 = 0xEF)
    (hb1 : (encodeAll cps).getD (n + 1) 0 = 0xBB)
    (hb2 : (encodeAll cps).getD (n + 2) 0 = 0xBF) :
    Pos cps (n + 3) (r + 1) := by
  have hr : r < cps.length := pos_lt_len cps n r hP hlt
  obtain ⟨h1, h2⟩ := hP
  have hdrop : (encodeAll cps).drop n =
      utf8Encode (cps.getD r 0) ++ encodeAll (cps.drop (r + 1)) := by
    rw [h2, drop_encLen cps r (le_of_lt hr), List.drop_eq_getElem_cons hr,
      show cps[r] = cps.getD r 0 by
        simp [List.getD_eq_getElem?_getD, List.getElem?_eq_getElem hr],
      encodeAll_cons]
  have g0 : (utf8Encode (cps.getD r 0) ++ encodeAll (cps.drop (r + 1))).getD 0 0 = 0xEF := by
    rw [← hdrop]
    simpa [getD_drop] using hb0
  have g1 : (utf8Encode (cps.getD r 0) ++ encodeAll (cps.drop (r + 1))).getD 1 0 = 0xBB := by
    rw [← hdrop]
    simpa [getD_drop] using hb1
  have g2 : (utf8Encode (cps.getD r 0) ++ encodeAll (cps.drop (r + 1))).getD 2 0 = 0xBF := by
    rw [← hdrop]
    simpa [getD_drop] using hb2
  set c := cps.getD r 0 with hc
  have henc : utf8Encode c = [0xEF, 0xBB, 0xBF] := by
    rw [utf8Encode]
    by_cases a1 : c < 0x80
    · rw [utf8Encode, if_pos a1] at g0
      simp at g0
      omega
    · rw [if_neg a1]
      by_cases a2 : c < 0x800
      · rw [utf8Encode, if_neg a1, if_pos a2] at g0
        simp at g0
        omega
      · rw [if_neg a2]
        by_cases a3 : c < 0x10000
        · rw [if_pos a3]
          rw [utf8Encode, if_neg a1, if_neg a2, if_pos a3] at g0 g1 g2
          simp at g0 g1 g2
          have : c / 0x1000 = 0xF := by omega
          have hcval : c = 0xFEFF := by omega
          rw [hcval]
        · rw [utf8Encode, if_neg a1, if_neg a2, if_neg a3] at g0
          simp at g0
          omega
  refine ⟨by omega, ?_⟩
  rw [encLen_succ cps r hr, ← hc, henc, h2]
  simp

namespace Lexer

/-- The whitespace skipper keeps the cursor on a code-point boundary. -/
theorem wsRun_inv (fuel : Nat) (cps : List Nat) (hv : validCps cps = true) (s : Lexer)
    (hin : s.input = encodeAll cps) (hE : Pos cps s.end_ s.endRunes) :
    Pos cps (Lexer.wsRun fuel s).end_ (Lexer.wsRun fuel s).endRunes := by
  induction fuel generalizing s with
  | zero => exact hE
  | succ f ih =>
    simp only [Lexer.wsRun]
    by_cases h1 : s.end_ < s.input.length
    case neg => rw [if_neg h1]; exact hE
    rw [if_pos h1]
    have hlt : s.end_ < (encodeAll cps).length := by rw [← hin]; exact h1
    by_cases h2 : s.input.getD s.end_ 0 = 9 ∨ s.input.getD s.end_ 0 = 32 ∨
        s.input.getD s.end_ 0 = 44
    case pos =>
      rw [if_pos h2]
      refine ih _ hin ?_
      rcases h2 with h2 | h2 | h2
      · exact (pos_step_ascii cps hv s.end_ s.endRunes 9 hE hlt
          (by rw [← hin]; exact h2) (by norm_num)).1
      · exact (pos_step_ascii cps hv s.end_ s.endRunes 32 hE hlt
          (by rw [← hin]; exact h2) (by norm_num)).1
      · exact (pos_step_ascii cps hv s.end_ s.endRunes 44 hE hlt
          (by rw [← hin]; exact h2) (by norm_num)).1
    rw [if_neg h2]
    by_cases h3 : s.input.getD s.end_ 0 = 10
    case pos =>
      rw [if_pos h3]
      exact ih _ hin (pos_step_ascii cps hv s.end_ s.endRunes 10 hE hlt
        (by rw [← hin]; exact h3) (by norm_num)).1
    rw [if_neg h3]
    by_cases h4 : s.input.getD s.end_ 0 = 13
    case pos =>
      rw [if_pos h4]
      have hE1 : Pos cps (s.end_ + 1) (s.endRunes + 1) :=
        (pos_step_ascii cps hv s.end_ s.endRunes 13 hE hlt
          (by rw [← hin]; exact h4) (by norm_num)).1
      by_cases h5 : s.end_ + 1 < s.input.length ∧ s.input.getD (s.end_ + 1) 0 = 10
      · rw [if_pos (by simpa using h5)]
        refine ih _ hin ?_
        exact (pos_step_ascii cps hv (s.end_ + 1) (s.endRunes + 1) 10 hE1
          (by rw [← hin]; exact h5.1) (by rw [← hin]; exact h5.2) (by norm_num)).1
      · rw [if_neg (by simpa using h5)]
        exact ih _ hin hE1
    rw [if_neg h4]
    by_cases h6 : s.input.getD s.end_ 0 = 0xEF
    case neg => rw [if_neg h6]; exact hE
    rw [if_pos h6]
    by_cases h7 : s.end_ + 2 < s.input.length ∧ s.input.getD (s.end_ + 1) 0 = 0xBB ∧
        s.input.getD (s.end_ + 2) 0 = 0xBF
    case neg => rw [if_neg h7]; exact hE
    rw [if_pos h7]
    refine ih _ hin ?_
    exact pos_step_bom cps hv _ _ hE hlt (by rw [← hin]; exact h6)
      (by rw [← hin]; exact h7.2.1) (by rw [← hin]; exact h7.2.2)

/-- Wrapper form of `wsRun_inv`. -/
theorem ws_inv (cps : List Nat) (hv : validCps cps = true) (s : Lexer)
    (hin : s.input = encodeAll cps) (hE : Pos cps s.end_ s.endRunes) :
    Pos cps s.ws.end_ s.ws.endRunes := wsRun_inv _ cps hv s hin hE

/-- The comment reader keeps the cursor on a code-point boundary. -/
theorem readCommentRun_inv (fuel : Nat) (cps : List Nat) (hv : validCps cps = true)
    (s : Lexer) (hin : s.input = encodeAll cps) (hE : Pos cps s.end_ s.endRunes) :
    Pos cps (Lexer.readCommentRun fuel s).end_ (Lexer.readCommentRun fuel s).endRunes := by
  induction fuel generalizing s with
  | zero => exact hE
  | succ f ih =>
    simp only [Lexer.readCommentRun]
    by_cases h1 : s.end_ < s.input.length
    case neg => rw [if_neg h1]; exact hE
    rw [if_pos h1]
    by_cases h2 : 0x1F < s.peek.1 ∨ s.peek.1 = 9
    case neg => rw [if_neg h2]; exact hE
    rw [if_pos h2]
    refine ih _ hin ?_
    have := pos_step_decode cps hv s.end_ s.endRunes hE (by rw [← hin]; exact h1)
    simpa [Lexer.peek, hin] using this

/-- The name reader preserves the invariant fields and keeps the cursor on a
code-point boundary. -/
theorem readNameRun_inv (fuel : Nat) (cps : List Nat) (hv : validCps cps = true)
    (s : Lexer) (hin : s.input = encodeAll cps) (hE : Pos cps s.end_ s.endRunes) :
    (Lexer.readNameRun fuel s).input = s.input ∧
    (Lexer.readNameRun fuel s).start = s.start ∧
    (Lexer.readNameRun fuel s).startRunes = s.startRunes ∧
    (Lexer.readNameRun fuel s).line = s.line ∧
    (Lexer.readNameRun fuel s).lineStartRunes = s.lineStartRunes ∧
    Pos cps (Lexer.readNameRun fuel s).end_ (Lexer.readNameRun fuel s).endRunes := by
  induction fuel generalizing s with
  | zero => exact ⟨rfl, rfl, rfl, rfl, rfl, hE⟩
  | succ f ih =>
    simp only [Lexer.readNameRun]
    by_cases h1 : s.end_ < s.input.length
    case neg => rw [if_neg h1]; exact ⟨rfl, rfl, rfl, rfl, rfl, hE⟩
    rw [if_pos h1]
    by_cases h2 : (48 ≤ s.peek.1 ∧ s.peek.1 ≤ 57) ∨ (65 ≤ s.peek.1 ∧ s.peek.1 ≤ 90) ∨
        (97 ≤ s.peek.1 ∧ s.peek.1 ≤ 122) ∨ s.peek.1 = 95
    case neg => rw [if_neg h2]; exact ⟨rfl, rfl, rfl, rfl, rfl, hE⟩
    rw [if_pos h2]
    refine ih _ hin ?_
    have := pos_step_decode cps hv s.end_ s.endRunes hE (by rw [← hin]; exact h1)
    simpa [Lexer.peek, hin] using this

end Lexer

theorem stepInv_refl (cps : List Nat) (s : Lexer) (hE : Pos cps s.end_ s.endRunes) :
    StepInv cps s s := ⟨rfl, rfl, rfl, hE, Nat.le_refl _⟩

theorem stepInv_trans (cps : List Nat) (s s₁ s₂ : Lexer) (h1 : StepInv cps s s₁)
    (h2 : StepInv cps s₁ s₂) : StepInv cps s s₂ := by
  obtain ⟨a1, a2, a3, -, a5⟩ := h1
  obtain ⟨b1, b2, b3, b4, b5⟩ := h2
  exact ⟨by rw [b1, a1], by rw [b2, a2], by rw [b3, a3], b4, le_trans a5 b5⟩

theorem stepInv_comp (cps : List Nat) (s s₁ s₂ : Lexer) (h2 : StepInv cps s₁ s₂)
    (e1 : s₁.input = s.input) (e2 : s₁.start = s.start)
    (e3 : s₁.startRunes = s.startRunes) (e4 : s.endRunes ≤ s₁.endRunes) :
    StepInv cps s s₂ := by
  obtain ⟨b1, b2, b3, b4, b5⟩ := h2
  exact ⟨by rw [b1, e1], by rw [b2, e2], by rw [b3, e3], b4, le_trans e4 b5⟩

theorem unhex_mem_ascii (bs : List Nat) (v w : Nat) (h : Lexer.unhex bs v = some w)
    (b : Nat) (hb : b ∈ bs) : b < 0x80 := by
  induction bs generalizing v with
  | nil => cases hb
  | cons c rest ih =>
    rw [Lexer.unhex] at h
    rcases List.mem_cons.mp hb with rfl | hb'
    · split_ifs at h <;> omega
    · split_ifs at h <;> first | exact ih _ h hb' | cases h

theorem getD_take (l : List Nat) (n i d : Nat) (h : i < n) :
    (l.take n).getD i d = l.getD i d := by
  simp [List.getD_eq_getElem?_getD, List.getElem?_take, h]

theorem getD_mem (l : List Nat) (i : Nat) (h : i < l.length) : l.getD i 0 ∈ l := by
  rw [List.getD_eq_getElem?_getD, List.getElem?_eq_getElem h]
  exact List.getElem_mem _

namespace Lexer

theorem acceptByte_stepinv (cps : List Nat) (hv : validCps cps = true) (s : Lexer)
    (bs : List Nat) (ha : ∀ b ∈ bs, b < 0x80)
    (hin : s.input = encodeAll cps) (hE : Pos cps s.end_ s.endRunes) :
    StepInv cps s (s.acceptByte bs).2 := by
  rw [Lexer.acceptByte]
  by_cases h1 : s.end_ ≥ s.input.length
  case pos => rw [if_pos h1]; exact stepInv_refl cps s hE
  rw [if_neg h1]
  by_cases h2 : s.input.getD s.end_ 0 ∈ bs
  case neg => rw [if_neg h2]; exact stepInv_refl cps s hE
  rw [if_pos h2]
  refine ⟨rfl, rfl, rfl, ?_, Nat.le_succ _⟩
  exact (pos_step_ascii cps hv s.end_ s.endRunes _ hE
    (by rw [← hin]; omega) (by rw [← hin]) (ha _ h2)).1

theorem acceptDigitsRun_stepinv (fuel : Nat) (cps : List Nat) (hv : validCps cps = true)
    (s : Lexer) (hin : s.input = encodeAll cps) (hE : Pos cps s.end_ s.endRunes) :
    StepInv cps s (Lexer.acceptDigitsRun fuel s).2 := by
  induction fuel generalizing s with
  | zero => exact stepInv_refl cps s hE
  | succ f ih =>
    rw [Lexer.acceptDigitsRun]
    by_cases h1 : s.end_ < s.input.length ∧ 48 ≤ s.input.getD s.end_ 0 ∧
        s.input.getD s.end_ 0 ≤ 57
    case neg => rw [if_neg h1]; exact stepInv_refl cps s hE
    rw [if_pos h1]
    have hstep : Pos cps (s.end_ + 1) (s.endRunes + 1) :=
      (pos_step_ascii cps hv s.end_ s.endRunes _ hE (by rw [← hin]; exact h1.1)
        (by rw [← hin]) (by omega)).1
    have := ih { s with end_ := s.end_ + 1, endRunes := s.endRunes + 1 } hin hstep
    obtain ⟨a1, a2, a3, a4, a5⟩ := this
    exact ⟨a1, a2, a3, a4, le_trans (Nat.le_succ _) a5⟩

theorem acceptDigits_stepinv (cps : List Nat) (hv : validCps cps = true)
    (s : Lexer) (hin : s.input = encodeAll cps) (hE : Pos cps s.end_ s.endRunes) :
    StepInv cps s s.acceptDigits.2 :=
  acceptDigitsRun_stepinv _ cps hv s hin hE

theorem readNumberTail_stepinv (cps : List Nat) (hv : validCps cps = true)
    (s : Lexer) (float : Bool) (hin : s.input = encodeAll cps)
    (hE : Pos cps s.end_ s.endRunes) :
    StepInv cps s (s.readNumberTail float).2.2 := by
  simp only [Lexer.readNumberTail]
  have e1 := acceptByte_stepinv cps hv s [101, 69] (by norm_num) hin hE
  obtain ⟨a1, a2, a3, a4, a5⟩ := id e1
  have e2 := acceptByte_stepinv cps hv (s.acceptByte [101, 69]).2 [45, 43]
    (by norm_num) (by rw [a1, hin]) a4
  have e3 := stepInv_trans cps _ _ _ e1 e2
  obtain ⟨b1, b2, b3, b4, b5⟩ := id e3
  have e4 := acceptDigits_stepinv cps hv ((s.acceptByte [101, 69]).2.acceptByte [45, 43]).2
    (by rw [b1, hin]) b4
  have e5 := stepInv_trans cps _ _ _ e3 e4
  split
  · split
    · exact e5
    · exact e5
  · split
    · exact e1
    · exact e1

theorem readNumberFrac_stepinv (cps : List Nat) (hv : validCps cps = true)
    (s : Lexer) (hin : s.input = encodeAll cps) (hE : Pos cps s.end_ s.endRunes) :
    StepInv cps s s.readNumberFrac.2.2 := by
  simp only [Lexer.readNumberFrac]
  have e1 := acceptByte_stepinv cps hv s [46] (by norm_num) hin hE
  obtain ⟨a1, a2, a3, a4, a5⟩ := id e1
  have e2 := acceptDigits_stepinv cps hv (s.acceptByte [46]).2 (by rw [a1, hin]) a4
  have e3 := stepInv_trans cps _ _ _ e1 e2
  obtain ⟨b1, b2, b3, b4, b5⟩ := id e3
  have e4 := readNumberTail_stepinv cps hv ((s.acceptByte [46]).2.acceptDigits).2 true
    (by rw [b1, hin]) b4
  have e5 := stepInv_trans cps _ _ _ e3 e4
  have e6 := readNumberTail_stepinv cps hv (s.acceptByte [46]).2 false
    (by rw [a1, hin]) a4
  have e7 := stepInv_trans cps _ _ _ e1 e6
  split
  · split
    · exact e3
    · exact e5
  · exact e7

theorem readNumber_stepinv (cps : List Nat) (hv : validCps cps = true)
    (s : Lexer) (hin : s.input = encodeAll cps)
    (hPrev : Pos cps (s.end_ - 1) (s.endRunes - 1)) :
    StepInv cps { s with end_ := s.end_ - 1, endRunes := s.endRunes - 1 }
      s.readNumber.2.2 := by
  simp only [Lexer.readNumber]
  set s0 : Lexer := { s with end_ := s.end_ - 1, endRunes := s.endRunes - 1 } with hs0
  have hE0 : Pos cps s0.end_ s0.endRunes := hPrev
  have e1 := acceptByte_stepinv cps hv s0 [45] (by norm_num) (by rw [hs0]; exact hin) hE0
  obtain ⟨a1, a2, a3, a4, a5⟩ := id e1
  have e2 := acceptByte_stepinv cps hv (s0.acceptByte [45]).2 [48] (by norm_num)
    (by rw [a1, hs0]; exact hin) a4
  have e3 := stepInv_trans cps _ _ _ e1 e2
  obtain ⟨b1, b2, b3, b4, b5⟩ := id e3
  have e4 := acceptDigits_stepinv cps hv ((s0.acceptByte [45]).2.acceptByte [48]).2
    (by rw [b1, hs0]; exact hin) b4
  have e5 := stepInv_trans cps _ _ _ e3 e4
  obtain ⟨c1, c2, c3, c4, c5⟩ := id e5
  split
  · split
    · -- leading-zero error: the state backs up by the consumed digit count
      refine ⟨c1, c2, c3, ?_, ?_⟩
      · have hspec := acceptDigitsRun_spec
          ((((s0.acceptByte [45]).2.acceptByte [48]).2.input.length + 1))
          ((s0.acceptByte [45]).2.acceptByte [48]).2
        rw [Lexer.acceptDigits] at c4 ⊢
        rw [hspec]
        simp only [Nat.add_sub_cancel]
        exact b4
      · have hspec := acceptDigitsRun_spec
          ((((s0.acceptByte [45]).2.acceptByte [48]).2.input.length + 1))
          ((s0.acceptByte [45]).2.acceptByte [48]).2
        rw [Lexer.acceptDigits]
        rw [hspec]
        simp only [Nat.add_sub_cancel]
        exact b5
    · have e6 := readNumberFrac_stepinv cps hv
        (((s0.acceptByte [45]).2.acceptByte [48]).2.acceptDigits).2
        (by rw [c1, hs0]; exact hin) c4
      exact stepInv_trans cps _ _ _ e5 e6
  · split
    · exact e5
    · have e6 := readNumberFrac_stepinv cps hv
        (((s0.acceptByte [45]).2.acceptByte [48]).2.acceptDigits).2
        (by rw [c1, hs0]; exact hin) c4
      exact stepInv_trans cps _ _ _ e5 e6

end Lexer

theorem pos_step_asciiB (cps : List Nat) (hv : validCps cps = true) (n r : Nat)
    (hP : Pos cps n r) (hlt : n < (encodeAll cps).length)
    (ha : (encodeAll cps).getD n 0 < 0x80) : Pos cps (n + 1) (r + 1) :=
  (pos_step_ascii cps hv n r _ hP hlt rfl ha).1

theorem escW_ascii (esc b : Nat)
    (h : (if esc = 34 ∨ esc = 47 ∨ esc = 92 then some esc
      else if esc = 98 then some 8 else if esc = 102 then some 12
      else if esc = 110 then some 10 else if esc = 114 then some 13
      else if esc = 116 then some 9 else none) = some b) : esc < 0x80 := by
  split_ifs at h <;> first | omega | cases h

theorem unhex_ascii_at (l : List Nat) (n v w : Nat)
    (h : Lexer.unhex ((l.drop n).take 4) v = some w) (hlen : n + 4 ≤ l.length)
    (i : Nat) (hi : i < 4) : l.getD (n + i) 0 < 0x80 := by
  have hmem : l.getD (n + i) 0 ∈ (l.drop n).take 4 := by
    rw [← getD_drop l n i 0, ← getD_take (l.drop n) 4 i 0 hi]
    apply getD_mem
    rw [List.length_take, List.length_drop]
    omega
  exact unhex_mem_ascii _ _ _ h _ hmem

namespace Lexer

theorem readStringRun_stepinv (cps : List Nat) (hv : validCps cps = true) :
    ∀ (fuel : Nat) (s : Lexer) (buf : Option (List Nat)),
    s.input = encodeAll cps → Pos cps s.end_ s.endRunes →
    StepInv cps s (Lexer.readStringRun fuel s buf).2.2 := by
  intro fuel
  induction fuel with
  | zero => intro s buf hin hE; exact stepInv_refl cps s hE
  | succ f ih =>
    intro s buf hin hE
    simp only [Lexer.readStringRun]
    by_cases h1 : s.end_ < s.input.length
    case neg => rw [if_neg h1]; exact stepInv_refl cps s hE
    rw [if_pos h1]
    by_cases h2 : s.input.getD s.end_ 0 = 10 ∨ s.input.getD s.end_ 0 = 13
    case pos => rw [if_pos h2]; exact stepInv_refl cps s hE
    rw [if_neg h2]
    by_cases h3 : s.input.getD s.end_ 0 < 32 ∧ ¬s.input.getD s.end_ 0 = 9
    case pos => rw [if_pos h3]; exact stepInv_refl cps s hE
    rw [if_neg h3]
    by_cases h4 : s.input.getD s.end_ 0 = 34
    case pos =>
      rw [if_pos h4]
      exact ⟨rfl, rfl, rfl, pos_step_asciiB cps hv s.end_ s.endRunes hE
        (by rw [← hin]; omega) (by rw [← hin, h4]; norm_num), Nat.le_succ _⟩
    rw [if_neg h4]
    by_cases h5 : s.input.getD s.end_ 0 = 92
    case neg =>
      rw [if_neg h5]
      by_cases h127 : s.input.getD s.end_ 0 ≥ 127
      case pos =>
        rw [if_pos h127]
        have hpos : Pos cps (s.end_ + (decodeRune (s.input.drop s.end_)).2)
            (s.endRunes + 1) := by
          rw [hin]
          exact pos_step_decode cps hv s.end_ s.endRunes hE (by rw [← hin]; omega)
        refine stepInv_comp cps s _ _ (ih _ _ ?_ ?_) rfl rfl rfl (Nat.le_add_right _ 1)
        · exact hin
        · exact hpos
      case neg =>
        rw [if_neg h127]
        have hpos : Pos cps (s.end_ + 1) (s.endRunes + 1) :=
          pos_step_asciiB cps hv s.end_ s.endRunes hE (by rw [← hin]; omega)
            (by rw [← hin]; omega)
        refine stepInv_comp cps s _ _ (ih _ _ ?_ ?_) rfl rfl rfl (Nat.le_succ _)
        · exact hin
        · exact hpos
    rw [if_pos h5]
    have hpos1 : Pos cps (s.end_ + 1) (s.endRunes + 1) :=
      pos_step_asciiB cps hv s.end_ s.endRunes hE (by rw [← hin]; omega)
        (by rw [← hin]; omega)
    by_cases h6 : s.end_ + 1 ≥ s.input.length
    case pos => rw [if_pos h6]; exact ⟨rfl, rfl, rfl, hpos1, Nat.le_succ _⟩
    rw [if_neg h6]
    by_cases h7 : s.input.getD (s.end_ + 1) 0 = 117
    case neg =>
      rw [if_neg h7]
      split
      · exact ⟨rfl, rfl, rfl, hpos1, Nat.le_succ _⟩
      · next b heq =>
        have hesc : s.input.getD (s.end_ + 1) 0 < 0x80 := escW_ascii _ b heq
        have hpos2 : Pos cps (s.end_ + 2) (s.endRunes + 2) :=
          pos_step_asciiB cps hv (s.end_ + 1) (s.endRunes + 1) hpos1
            (by rw [← hin]; omega) (by rw [← hin]; omega)
        refine stepInv_comp cps s _ _ (ih _ _ ?_ ?_) rfl rfl rfl (Nat.le_add_right _ 2)
        · exact hin
        · exact hpos2
    rw [if_pos h7]
    by_cases h8 : s.end_ + 6 ≥ s.input.length
    case pos => rw [if_pos h8]; exact ⟨rfl, rfl, rfl, hpos1, Nat.le_succ _⟩
    rw [if_neg h8]
    split
    · exact ⟨rfl, rfl, rfl, hpos1, Nat.le_succ _⟩
    · next rr heq =>
      have hlen4 : s.end_ + 2 + 4 ≤ s.input.length := by omega
      have hpos2 : Pos cps (s.end_ + 2) (s.endRunes + 2) :=
        pos_step_asciiB cps hv (s.end_ + 1) (s.endRunes + 1) hpos1
          (by rw [← hin]; omega) (by rw [← hin, h7]; norm_num)
      have hpos3 : Pos cps (s.end_ + 3) (s.endRunes + 3) :=
        pos_step_asciiB cps hv (s.end_ + 2) (s.endRunes + 2) hpos2
          (by rw [← hin]; omega)
          (by rw [← hin]
              have := unhex_ascii_at s.input (s.end_ + 2) 0 rr heq hlen4 0 (by norm_num)
              simpa using this)
      have hpos4 : Pos cps (s.end_ + 4) (s.endRunes + 4) :=
        pos_step_asciiB cps hv (s.end_ + 3) (s.endRunes + 3) hpos3
          (by rw [← hin]; omega)
          (by rw [← hin]
              have := unhex_ascii_at s.input (s.end_ + 2) 0 rr heq hlen4 1 (by norm_num)
              have he : s.end_ + 2 + 1 = s.end_ + 3 := by omega
              rw [he] at this; exact this)
      have hpos5 : Pos cps (s.end_ + 5) (s.endRunes + 5) :=
        pos_step_asciiB cps hv (s.end_ + 4) (s.endRunes + 4) hpos4
          (by rw [← hin]; omega)
          (by rw [← hin]
              have := unhex_ascii_at s.input (s.end_ + 2) 0 rr heq hlen4 2 (by norm_num)
              have he : s.end_ + 2 + 2 = s.end_ + 4 := by omega
              rw [he] at this; exact this)
      have hpos6 : Pos cps (s.end_ + 6) (s.endRunes + 6) :=
        pos_step_asciiB cps hv (s.end_ + 5) (s.endRunes + 5) hpos5
          (by rw [← hin]; omega)
          (by rw [← hin]
              have := unhex_ascii_at s.input (s.end_ + 2) 0 rr heq hlen4 3 (by norm_num)
              have he : s.end_ + 2 + 3 = s.end_ + 5 := by omega
              rw [he] at this; exact this)
      refine stepInv_comp cps s _ _ (ih _ _ ?_ ?_) rfl rfl rfl (Nat.le_add_right _ 6)
      · exact hin
      · exact hpos6

end Lexer

theorem bytes_of_take (l : List Nat) (n k : Nat) (bs : List Nat)
    (hq : (l.drop n).take k = bs) (i : Nat) (hi : i < k) :
    l.getD (n + i) 0 = bs.getD i 0 := by
  rw [← getD_drop, ← getD_take (l.drop n) k i 0 hi, hq]

theorem get?_info (l : List Nat) (n c : Nat) (h : l.get? n = some c) :
    n < l.length ∧ l.getD n 0 = c := by
  rw [List.get?_eq_getElem?] at h
  constructor
  · by_contra hge
    rw [List.getElem?_eq_none (by omega)] at h
    cases h
  · rw [List.getD_eq_getElem?_getD, h]
    rfl

namespace Lexer

theorem readBlockStringRun_stepinv (cps : List Nat) (hv : validCps cps = true) :
    ∀ (fuel : Nat) (s : Lexer) (buf : List Nat) (t : Token) (e : Option String)
    (s' : Lexer), Lexer.readBlockStringRun fuel s buf = .ok (t, e, s') →
    s.input = encodeAll cps → Pos cps s.end_ s.endRunes →
    StepInv cps s s' := by
  intro fuel
  induction fuel with
  | zero =>
    intro s buf t e s' h hin hE
    simp only [Lexer.readBlockStringRun, Res.ok.injEq, Prod.mk.injEq] at h
    obtain ⟨-, -, rfl⟩ := h
    exact stepInv_refl cps s hE
  | succ f ih =>
    intro s buf t e s' h hin hE
    simp only [Lexer.readBlockStringRun] at h
    by_cases h1 : s.end_ < s.input.length
    case neg =>
      rw [if_neg h1] at h
      simp only [Res.ok.injEq, Prod.mk.injEq] at h
      obtain ⟨-, -, rfl⟩ := h
      exact stepInv_refl cps s hE
    rw [if_pos h1] at h
    by_cases h2 : s.input.getD s.end_ 0 = 34 ∧ s.end_ + 3 ≤ s.input.length ∧
        (s.input.drop s.end_).take 3 = [34, 34, 34]
    case pos =>
      rw [if_pos h2] at h
      simp only [Res.ok.injEq, Prod.mk.injEq] at h
      obtain ⟨-, -, rfl⟩ := h
      have hb1 : s.input.getD (s.end_ + 1) 0 = 34 :=
        bytes_of_take s.input s.end_ 3 [34, 34, 34] h2.2.2 1 (by norm_num)
      have hb2 : s.input.getD (s.end_ + 2) 0 = 34 :=
        bytes_of_take s.input s.end_ 3 [34, 34, 34] h2.2.2 2 (by norm_num)
      have p1 : Pos cps (s.end_ + 1) (s.endRunes + 1) :=
        pos_step_asciiB cps hv s.end_ s.endRunes hE (by rw [← hin]; omega)
          (by rw [← hin]; omega)
      have p2 : Pos cps (s.end_ + 2) (s.endRunes + 2) :=
        pos_step_asciiB cps hv (s.end_ + 1) (s.endRunes + 1) p1
          (by rw [← hin]; omega)
          (by rw [← hin]; omega)
      have p3 : Pos cps (s.end_ + 3) (s.endRunes + 3) :=
        pos_step_asciiB cps hv (s.end_ + 2) (s.endRunes + 2) p2
          (by rw [← hin]; omega)
          (by rw [← hin]; omega)
      exact ⟨rfl, rfl, rfl, p3, Nat.le_add_right _ 3⟩
    rw [if_neg h2] at h
    by_cases h3 : s.input.getD s.end_ 0 < 32 ∧ ¬s.input.getD s.end_ 0 = 9 ∧
        ¬s.input.getD s.end_ 0 = 10 ∧ ¬s.input.getD s.end_ 0 = 13
    case pos =>
      rw [if_pos h3] at h
      simp only [Res.ok.injEq, Prod.mk.injEq] at h
      obtain ⟨-, -, rfl⟩ := h
      exact stepInv_refl cps s hE
    rw [if_neg h3] at h
    by_cases h4 : s.input.getD s.end_ 0 = 92 ∧ s.end_ + 4 ≤ s.input.length ∧
        (s.input.drop s.end_).take 4 = [92, 34, 34, 34]
    case pos =>
      rw [if_pos h4] at h
      have hb1 : s.input.getD (s.end_ + 1) 0 = 34 :=
        bytes_of_take s.input s.end_ 4 [92, 34, 34, 34] h4.2.2 1 (by norm_num)
      have hb2 : s.input.getD (s.end_ + 2) 0 = 34 :=
        bytes_of_take s.input s.end_ 4 [92, 34, 34, 34] h4.2.2 2 (by norm_num)
      have hb3 : s.input.getD (s.end_ + 3) 0 = 34 :=
        bytes_of_take s.input s.end_ 4 [92, 34, 34, 34] h4.2.2 3 (by norm_num)
      have p1 : Pos cps (s.end_ + 1) (s.endRunes + 1) :=
        pos_step_asciiB cps hv s.end_ s.endRunes hE (by rw [← hin]; omega)
          (by rw [← hin]; omega)
      have p2 : Pos cps (s.end_ + 2) (s.endRunes + 2) :=
        pos_step_asciiB cps hv (s.end_ + 1) (s.endRunes + 1) p1
          (by rw [← hin]; omega)
          (by rw [← hin]; omega)
      have p3 : Pos cps (s.end_ + 3) (s.endRunes + 3) :=
        pos_step_asciiB cps hv (s.end_ + 2) (s.endRunes + 2) p2
          (by rw [← hin]; omega)
          (by rw [← hin]; omega)
      have p4 : Pos cps (s.end_ + 4) (s.endRunes + 4) :=
        pos_step_asciiB cps hv (s.end_ + 3) (s.endRunes + 3) p3
          (by rw [← hin]; omega)
          (by rw [← hin]; omega)
      exact stepInv_comp cps s _ _ (ih _ _ _ _ _ h hin p4) rfl rfl rfl
        (Nat.le_add_right _ 4)
    rw [if_neg h4] at h
    by_cases h5 : s.input.getD s.end_ 0 = 13
    case pos =>
      rw [if_pos h5] at h
      have p1 : Pos cps (s.end_ + 1) (s.endRunes + 1) :=
        pos_step_asciiB cps hv s.end_ s.endRunes hE (by rw [← hin]; omega)
          (by rw [← hin]; omega)
      by_cases h6 : s.end_ + 1 ≤ s.input.length
      case pos =>
        rw [if_pos h6] at h
        split at h
        case _ => cases h
        case _ c hget =>
          obtain ⟨hlt, hc⟩ := get?_info s.input (s.end_ + 1) c hget
          by_cases h7 : c = 10
          case pos =>
            rw [if_pos h7] at h
            have p2 : Pos cps (s.end_ + 1 + 1) (s.endRunes + 1 + 1) :=
              pos_step_asciiB cps hv (s.end_ + 1) (s.endRunes + 1) p1
                (by rw [← hin]; omega)
                (by rw [← hin]; omega)
            exact stepInv_comp cps s _ _ (ih _ _ _ _ _ h hin p2) rfl rfl rfl
              (Nat.le_add_right _ 2)
          case neg =>
            rw [if_neg h7] at h
            exact stepInv_comp cps s _ _ (ih _ _ _ _ _ h hin p1) rfl rfl rfl
              (Nat.le_add_right _ 1)
      case neg =>
        rw [if_neg h6] at h
        exact stepInv_comp cps s _ _ (ih _ _ _ _ _ h hin p1) rfl rfl rfl
          (Nat.le_add_right _ 1)
    rw [if_neg h5] at h
    by_cases h127 : s.input.getD s.end_ 0 ≥ 127
    case pos =>
      rw [if_pos h127] at h
      have hpos : Pos cps (s.end_ + (decodeRune (s.input.drop s.end_)).2)
          (s.endRunes + 1) := by
        rw [hin]
        exact pos_step_decode cps hv s.end_ s.endRunes hE (by rw [← hin]; omega)
      exact stepInv_comp cps s _ _ (ih _ _ _ _ _ h hin hpos) rfl rfl rfl
        (Nat.le_add_right _ 1)
    case neg =>
      rw [if_neg h127] at h
      have hpos : Pos cps (s.end_ + 1) (s.endRunes + 1) :=
        pos_step_asciiB cps hv s.end_ s.endRunes hE (by rw [← hin]; omega)
          (by rw [← hin]; omega)
      exact stepInv_comp cps s _ _ (ih _ _ _ _ _ h hin hpos) rfl rfl rfl
        (Nat.le_add_right _ 1)

end Lexer

theorem pos_mono (cps : List Nat) (n r n' r' : Nat) (hP : Pos cps n r)
    (hP' : Pos cps n' r') (hn : n ≤ n') : r ≤ r' := by
  by_contra hgt
  push_neg at hgt
  obtain ⟨h1, h2⟩ := hP
  obtain ⟨h1', h2'⟩ := hP'
  have hw := encLen_succ cps r' (by omega)
  have hpos := utf8Encode_length_pos (cps.getD r' 0)
  have hle := encLen_le cps (r' + 1) r (by omega)
  omega

theorem readNameRun_endmono (fuel : Nat) (s : Lexer) :
    s.endRunes ≤ (Lexer.readNameRun fuel s).endRunes := by
  induction fuel generalizing s with
  | zero => exact Nat.le_refl _
  | succ f ih =>
    simp only [Lexer.readNameRun]
    split
    · split
      · exact le_trans (Nat.le_succ _)
          (ih { s with end_ := s.end_ + (s.peek).2, endRunes := s.endRunes + 1 })
      · exact Nat.le_refl _
    · exact Nat.le_refl _

theorem New_inv (cps : List Nat) : InvL cps (Lexer.New (encodeAll cps)) := by
  refine ⟨rfl, ⟨?_, ?_⟩, ⟨?_, ?_⟩, ?_⟩ <;> simp [Lexer.New, encLen, encodeAll]

namespace Lexer

theorem dispatchCore_inv (cps : List Nat) (hv : validCps cps = true) (r : Nat)
    (s : Lexer) (t : Token) (e : Option String) (s' : Lexer)
    (h : Lexer.dispatchCore r s = .ok (t, e, s'))
    (hin : s.input = encodeAll cps) (hr : s.input.getD s.start 0 = r)
    (hend : s.end_ = s.start + 1) (hendR : s.endRunes = s.startRunes + 1)
    (hS : Pos cps s.start s.startRunes) (hlt : s.start < s.input.length) :
    InvL cps s' := by
  have hasc : r < 0x80 → Pos cps s.end_ s.endRunes := fun hA => by
    rw [hend, hendR]
    exact pos_step_asciiB cps hv s.start s.startRunes hS (by rw [← hin]; omega)
      (by rw [← hin, hr]; omega)
  have hback : InvL cps { s with end_ := s.end_ - 1, endRunes := s.endRunes - 1 } :=
    ⟨hin, hS,
      (show Pos cps (s.end_ - 1) (s.endRunes - 1) by
        rw [hend, hendR]; simp only [Nat.add_sub_cancel]; exact hS),
      by simp only; omega⟩
  simp only [Lexer.dispatchCore] at h
  by_cases h33 : r = 33
  case pos =>
    rw [if_pos h33] at h
    simp only [Res.ok.injEq, Prod.mk.injEq] at h
    obtain ⟨-, -, rfl⟩ := h
    exact ⟨hin, hS, hasc (by omega), by omega⟩
  rw [if_neg h33] at h
  by_cases h36 : r = 36
  case pos =>
    rw [if_pos h36] at h
    simp only [Res.ok.injEq, Prod.mk.injEq] at h
    obtain ⟨-, -, rfl⟩ := h
    exact ⟨hin, hS, hasc (by omega), by omega⟩
  rw [if_neg h36] at h
  by_cases h38 : r = 38
  case pos =>
    rw [if_pos h38] at h
    simp only [Res.ok.injEq, Prod.mk.injEq] at h
    obtain ⟨-, -, rfl⟩ := h
    exact ⟨hin, hS, hasc (by omega), by omega⟩
  rw [if_neg h38] at h
  by_cases h40 : r = 40
  case pos =>
    rw [if_pos h40] at h
    simp only [Res.ok.injEq, Prod.mk.injEq] at h
    obtain ⟨-, -, rfl⟩ := h
    exact ⟨hin, hS, hasc (by omega), by omega⟩
  rw [if_neg h40] at h
  by_cases h41 : r = 41
  case pos =>
    rw [if_pos h41] at h
    simp only [Res.ok.injEq, Prod.mk.injEq] at h
    obtain ⟨-, -, rfl⟩ := h
    exact ⟨hin, hS, hasc (by omega), by omega⟩
  rw [if_neg h41] at h
  by_cases h46 : r = 46
  case pos =>
    rw [if_pos h46] at h
    split at h
    case isTrue hc =>
      simp only [Res.ok.injEq, Prod.mk.injEq] at h
      obtain ⟨-, -, rfl⟩ := h
      have hb1 : s.input.getD (s.start + 1) 0 = 46 :=
        bytes_of_take s.input s.start 3 [46, 46, 46] hc.2 1 (by norm_num)
      have hb2 : s.input.getD (s.start + 2) 0 = 46 :=
        bytes_of_take s.input s.start 3 [46, 46, 46] hc.2 2 (by norm_num)
      have p1 : Pos cps (s.start + 1) (s.startRunes + 1) := by
        rw [← hend, ← hendR]; exact hasc (by omega)
      have p2 : Pos cps (s.start + 2) (s.startRunes + 2) :=
        pos_step_asciiB cps hv (s.start + 1) (s.startRunes + 1) p1
          (by rw [← hin]; omega) (by rw [← hin]; omega)
      have p3 : Pos cps (s.start + 3) (s.startRunes + 3) :=
        pos_step_asciiB cps hv (s.start + 2) (s.startRunes + 2) p2
          (by rw [← hin]; omega) (by rw [← hin]; omega)
      refine ⟨hin, hS, ?_, by simp only; omega⟩
      show Pos cps (s.end_ + 2) (s.endRunes + 2)
      rw [hend, hendR]
      exact p3
    case isFalse hc =>
      simp only [Res.ok.injEq, Prod.mk.injEq] at h
      obtain ⟨-, -, rfl⟩ := h
      exact hback
  rw [if_neg h46] at h
  by_cases h58 : r = 58
  case pos =>
    rw [if_pos h58] at h
    simp only [Res.ok.injEq, Prod.mk.injEq] at h
    obtain ⟨-, -, rfl⟩ := h
    exact ⟨hin, hS, hasc (by omega), by omega⟩
  rw [if_neg h58] at h
  by_cases h61 : r = 61
  case pos =>
    rw [if_pos h61] at h
    simp only [Res.ok.injEq, Prod.mk.injEq] at h
    obtain ⟨-, -, rfl⟩ := h
    exact ⟨hin, hS, hasc (by omega), by omega⟩
  rw [if_neg h61] at h
  by_cases h64 : r = 64
  case pos =>
    rw [if_pos h64] at h
    simp only [Res.ok.injEq, Prod.mk.injEq] at h
    obtain ⟨-, -, rfl⟩ := h
    exact ⟨hin, hS, hasc (by omega), by omega⟩
  rw [if_neg h64] at h
  by_cases h91 : r = 91
  case pos =>
    rw [if_pos h91] at h
    simp only [Res.ok.injEq, Prod.mk.injEq] at h
    obtain ⟨-, -, rfl⟩ := h
    exact ⟨hin, hS, hasc (by omega), by omega⟩
  rw [if_neg h91] at h
  by_cases h93 : r = 93
  case pos =>
    rw [if_pos h93] at h
    simp only [Res.ok.injEq, Prod.mk.injEq] at h
    obtain ⟨-, -, rfl⟩ := h
    exact ⟨hin, hS, hasc (by omega), by omega⟩
  rw [if_neg h93] at h
  by_cases h123 : r = 123
  case pos =>
    rw [if_pos h123] at h
    simp only [Res.ok.injEq, Prod.mk.injEq] at h
    obtain ⟨-, -, rfl⟩ := h
    exact ⟨hin, hS, hasc (by omega), by omega⟩
  rw [if_neg h123] at h
  by_cases h125 : r = 125
  case pos =>
    rw [if_pos h125] at h
    simp only [Res.ok.injEq, Prod.mk.injEq] at h
    obtain ⟨-, -, rfl⟩ := h
    exact ⟨hin, hS, hasc (by omega), by omega⟩
  rw [if_neg h125] at h
  by_cases h124 : r = 124
  case pos =>
    rw [if_pos h124] at h
    simp only [Res.ok.injEq, Prod.mk.injEq] at h
    obtain ⟨-, -, rfl⟩ := h
    exact ⟨hin, hS, hasc (by omega), by omega⟩
  rw [if_neg h124] at h
  by_cases hnm : r = 95 ∨ (65 ≤ r ∧ r ≤ 90) ∨ (97 ≤ r ∧ r ≤ 122)
  case pos =>
    rw [if_pos hnm] at h
    simp only [Res.ok.injEq] at h
    have hs2 : s.readName.2.2 = s' := by rw [h]
    have hs3 : Lexer.readNameRun (s.input.length + 1) s = s' := hs2
    obtain ⟨n1, n2, n3, -, -, n6⟩ :=
      readNameRun_inv (s.input.length + 1) cps hv s hin
        (hasc (by rcases hnm with hq | hq | hq <;> omega))
    have mono := readNameRun_endmono (s.input.length + 1) s
    rw [hs3] at n1 n2 n3 n6 mono
    refine ⟨by rw [n1, hin], by rw [n2, n3]; exact hS, n6, ?_⟩
    rw [n3]
    omega
  rw [if_neg hnm] at h
  by_cases hnum : r = 45 ∨ (48 ≤ r ∧ r ≤ 57)
  case pos =>
    rw [if_pos hnum] at h
    simp only [Res.ok.injEq] at h
    have hs2 : s.readNumber.2.2 = s' := by rw [h]
    have hst := readNumber_stepinv cps hv s hin
      (show Pos cps (s.end_ - 1) (s.endRunes - 1) by
        rw [hend, hendR]; simp only [Nat.add_sub_cancel]; exact hS)
    rw [hs2] at hst
    obtain ⟨d1, d2, d3, d4, d5⟩ := hst
    refine ⟨by rw [d1]; exact hin, by rw [d2, d3]; exact hS, d4, ?_⟩
    have d3a : s'.startRunes = s.startRunes := d3
    have d5a : s.endRunes - 1 ≤ s'.endRunes := d5
    omega
  rw [if_neg hnum] at h
  by_cases h34 : r = 34
  case pos =>
    rw [if_pos h34] at h
    split at h
    case isTrue hc =>
      simp only [Lexer.readBlockString] at h
      have hb1 : s.input.getD (s.start + 1) 0 = 34 :=
        bytes_of_take s.input s.start 3 [34, 34, 34] hc.2 1 (by norm_num)
      have hb2 : s.input.getD (s.start + 2) 0 = 34 :=
        bytes_of_take s.input s.start 3 [34, 34, 34] hc.2 2 (by norm_num)
      have p1 : Pos cps (s.start + 1) (s.startRunes + 1) := by
        rw [← hend, ← hendR]; exact hasc (by omega)
      have p2 : Pos cps (s.start + 2) (s.startRunes + 2) :=
        pos_step_asciiB cps hv (s.start + 1) (s.startRunes + 1) p1
          (by rw [← hin]; omega) (by rw [← hin]; omega)
      have p3 : Pos cps (s.start + 3) (s.startRunes + 3) :=
        pos_step_asciiB cps hv (s.start + 2) (s.startRunes + 2) p2
          (by rw [← hin]; omega) (by rw [← hin]; omega)
      have hst := readBlockStringRun_stepinv cps hv _ _ _ _ _ _ h hin
        (show Pos cps (s.end_ + 2) (s.endRunes + 2) by
          rw [hend, hendR]; exact p3)
      obtain ⟨e1, e2, e3, e4, e5⟩ := hst
      refine ⟨by rw [(e1 : s'.input = s.input), hin],
        ?_, e4, ?_⟩
      · rw [(e2 : s'.start = s.start + 3), (e3 : s'.startRunes = s.startRunes + 3)]
        exact p3
      · have he3 : s'.startRunes = s.startRunes + 3 := e3
        have h5 : s.endRunes + 2 ≤ s'.endRunes := e5
        omega
    case isFalse hc =>
      simp only [Res.ok.injEq] at h
      have hs2 : s.readString.2.2 = s' := by rw [h]
      simp only [Lexer.readString] at hs2
      have hst := readStringRun_stepinv cps hv (s.input.length + 1)
        { s with start := s.start + 1, startRunes := s.startRunes + 1 } none hin
        (hasc (by omega))
      rw [hs2] at hst
      obtain ⟨e1, e2, e3, e4, e5⟩ := hst
      refine ⟨by rw [(e1 : s'.input = s.input), hin], ?_, e4, ?_⟩
      · rw [(e2 : s'.start = s.start + 1), (e3 : s'.startRunes = s.startRunes + 1)]
        rw [← hend, ← hendR]
        exact hasc (by omega)
      · have he3 : s'.startRunes = s.startRunes + 1 := e3
        have h5 : s.endRunes ≤ s'.endRunes := e5
        omega
  rw [if_neg h34] at h
  split at h
  · simp only [Res.ok.injEq, Prod.mk.injEq] at h
    obtain ⟨-, -, rfl⟩ := h
    exact hback
  · split at h
    · simp only [Res.ok.injEq, Prod.mk.injEq] at h
      obtain ⟨-, -, rfl⟩ := h
      exact hback
    · simp only [Res.ok.injEq, Prod.mk.injEq] at h
      obtain ⟨-, -, rfl⟩ := h
      exact hback

theorem dispatchRest_inv (cps : List Nat) (hv : validCps cps = true) (r : Nat)
    (s : Lexer) (t : Token) (e : Option String) (s' : Lexer)
    (h : Lexer.dispatchRest r s = .ok (t, e, s'))
    (hin : s.input = encodeAll cps) (hr : s.input.getD s.start 0 = r)
    (hend : s.end_ = s.start + 1) (hendR : s.endRunes = s.startRunes + 1)
    (hS : Pos cps s.start s.startRunes) (hlt : s.start < s.input.length) :
    InvL cps s' := by
  rw [Lexer.dispatchRest] at h
  split at h
  case _ t2 e2 s2 hcore =>
    simp only [Lexer.ret, Res.ok.injEq, Prod.mk.injEq] at h
    obtain ⟨rfl, rfl, rfl⟩ := h
    obtain ⟨i1, i2, i3, i4⟩ :=
      dispatchCore_inv cps hv r s t2 e2 s2 hcore hin hr hend hendR hS hlt
    exact ⟨i1, i2, i3, i4⟩
  case _ hcore => cases h
  case _ hcore => cases h

end Lexer

namespace Lexer

theorem ReadTokenAux_inv (cps : List Nat) (hv : validCps cps = true) :
    ∀ (fuel : Nat) (s : Lexer) (t : Token) (e : Option String) (s' : Lexer),
    Lexer.ReadTokenAux fuel s = .ok (t, e, s') → InvL cps s → InvL cps s' := by
  intro fuel
  induction fuel with
  | zero => intro s t e s' h hI; cases h
  | succ f ih =>
    intro s t e s' h hI
    obtain ⟨hin, hS, hE, hle⟩ := hI
    simp only [Lexer.ReadTokenAux] at h
    by_cases hp : s.peeked
    case pos =>
      rw [if_pos hp] at h
      simp only [Lexer.ret, Res.ok.injEq, Prod.mk.injEq] at h
      obtain ⟨rfl, rfl, rfl⟩ := h
      exact ⟨hin, hS, hE, hle⟩
    rw [if_neg hp] at h
    obtain ⟨w1, w2, w3, -, -, -, -, w8, w9⟩ := ws_frame s
    have hin1 : s.ws.input = encodeAll cps := by rw [w1]; exact hin
    have wE : Pos cps s.ws.end_ s.ws.endRunes := ws_inv cps hv s hin hE
    split at h
    next hle2 =>
      simp only [Lexer.ret, Res.ok.injEq, Prod.mk.injEq] at h
      obtain ⟨rfl, rfl, rfl⟩ := h
      exact ⟨hin1, wE, wE, Nat.le_refl _⟩
    next hle2 =>
      have hlt1 : s.ws.end_ < s.ws.input.length := by
        have hx : ¬(s.ws.input.length ≤ s.ws.end_) := hle2
        omega
      split at h
      next hr35 =>
        have hb35 : s.ws.input.getD s.ws.end_ 0 = 35 := hr35
        have pE3 : Pos cps (s.ws.end_ + 1) (s.ws.endRunes + 1) :=
          pos_step_asciiB cps hv s.ws.end_ s.ws.endRunes wE
            (by rw [← hin1]; omega) (by rw [← hin1]; omega)
        refine ih _ _ _ _ h ?_
        obtain ⟨g1, g2, g3, -, -, -, -, -, g9, g10, -⟩ :=
          readCommentRun_frame (({ s.ws with start := s.ws.end_, startRunes := s.ws.endRunes, end_ := s.ws.end_ + 1, endRunes := s.ws.endRunes + 1 } : Lexer).input.length + 1) { s.ws with start := s.ws.end_, startRunes := s.ws.endRunes, end_ := s.ws.end_ + 1, endRunes := s.ws.endRunes + 1 }
        have cE := readCommentRun_inv (({ s.ws with start := s.ws.end_, startRunes := s.ws.endRunes, end_ := s.ws.end_ + 1, endRunes := s.ws.endRunes + 1 } : Lexer).input.length + 1) cps hv { s.ws with start := s.ws.end_, startRunes := s.ws.endRunes, end_ := s.ws.end_ + 1, endRunes := s.ws.endRunes + 1 } hin1 pE3
        have c1 : (Lexer.readCommentRun (({ s.ws with start := s.ws.end_, startRunes := s.ws.endRunes, end_ := s.ws.end_ + 1, endRunes := s.ws.endRunes + 1 } : Lexer).input.length + 1) { s.ws with start := s.ws.end_, startRunes := s.ws.endRunes, end_ := s.ws.end_ + 1, endRunes := s.ws.endRunes + 1 }).input = encodeAll cps := by rw [g1]; exact hin1
        have c2 : Pos cps (Lexer.readCommentRun (({ s.ws with start := s.ws.end_, startRunes := s.ws.endRunes, end_ := s.ws.end_ + 1, endRunes := s.ws.endRunes + 1 } : Lexer).input.length + 1) { s.ws with start := s.ws.end_, startRunes := s.ws.endRunes, end_ := s.ws.end_ + 1, endRunes := s.ws.endRunes + 1 }).start (Lexer.readCommentRun (({ s.ws with start := s.ws.end_, startRunes := s.ws.endRunes, end_ := s.ws.end_ + 1, endRunes := s.ws.endRunes + 1 } : Lexer).input.length + 1) { s.ws with start := s.ws.end_, startRunes := s.ws.endRunes, end_ := s.ws.end_ + 1, endRunes := s.ws.endRunes + 1 }).startRunes := by rw [g2, g3]; exact wE
        have hg9 : s.ws.end_ + 1 ≤ (Lexer.readCommentRun (({ s.ws with start := s.ws.end_, startRunes := s.ws.endRunes, end_ := s.ws.end_ + 1, endRunes := s.ws.endRunes + 1 } : Lexer).input.length + 1) { s.ws with start := s.ws.end_, startRunes := s.ws.endRunes, end_ := s.ws.end_ + 1, endRunes := s.ws.endRunes + 1 }).end_ := g10
        have c4 : (Lexer.readCommentRun (({ s.ws with start := s.ws.end_, startRunes := s.ws.endRunes, end_ := s.ws.end_ + 1, endRunes := s.ws.endRunes + 1 } : Lexer).input.length + 1) { s.ws with start := s.ws.end_, startRunes := s.ws.endRunes, end_ := s.ws.end_ + 1, endRunes := s.ws.endRunes + 1 }).startRunes ≤ (Lexer.readCommentRun (({ s.ws with start := s.ws.end_, startRunes := s.ws.endRunes, end_ := s.ws.end_ + 1, endRunes := s.ws.endRunes + 1 } : Lexer).input.length + 1) { s.ws with start := s.ws.end_, startRunes := s.ws.endRunes, end_ := s.ws.end_ + 1, endRunes := s.ws.endRunes + 1 }).endRunes := by
          rw [g3]
          exact pos_mono cps s.ws.end_ s.ws.endRunes _ _ wE cE (by omega)
        exact ⟨c1, c2, cE, c4⟩
      next hr35 =>
        exact dispatchRest_inv cps hv _ _ _ _ _ h hin1 rfl rfl rfl wE hlt1

end Lexer

namespace Lexer

theorem ReadToken_inv (cps : List Nat) (hv : validCps cps = true) (s : Lexer)
    (t : Token) (e : Option String) (s' : Lexer)
    (h : s.ReadToken = .ok (t, e, s')) (hI : InvL cps s) : InvL cps s' :=
  ReadTokenAux_inv cps hv _ s t e s' h hI

theorem PeekToken_inv (cps : List Nat) (hv : validCps cps = true) (s : Lexer)
    (t : Token) (s' : Lexer) (h : s.PeekToken = .ok (t, s')) (hI : InvL cps s) :
    InvL cps s' := by
  rw [Lexer.PeekToken] at h
  by_cases hp : s.peeked
  case pos =>
    rw [if_pos hp] at h
    simp only [Res.ok.injEq, Prod.mk.injEq] at h
    obtain ⟨-, rfl⟩ := h
    exact hI
  case neg =>
    rw [if_neg hp] at h
    split at h
    case _ t2 e2 s2 heq =>
      simp only [Res.ok.injEq, Prod.mk.injEq] at h
      obtain ⟨-, rfl⟩ := h
      obtain ⟨i1, i2, i3, i4⟩ := ReadToken_inv cps hv s t2 e2 s2 heq hI
      exact ⟨i1, i2, i3, i4⟩
    case _ heq => cases h
    case _ heq => cases h

end Lexer

theorem applyOps_inv (cps : List Nat) (hv : validCps cps = true) :
    ∀ (ops : List Bool) (s s' : Lexer), applyOps ops s = .ok s' → InvL cps s →
    InvL cps s' := by
  intro ops
  induction ops with
  | nil =>
    intro s s' h hI
    simp only [applyOps, Res.ok.injEq] at h
    rw [← h]
    exact hI
  | cons op rest ih =>
    intro s s' h hI
    cases op with
    | true =>
      simp only [applyOps] at h
      split at h
      case _ t2 e2 s2 heq =>
        exact ih s2 s' h (Lexer.ReadToken_inv cps hv s t2 e2 s2 heq hI)
      case _ heq => cases h
      case _ heq => cases h
    | false =>
      simp only [applyOps] at h
      split at h
      case _ t2 s2 heq =>
        exact ih s2 s' h (Lexer.PeekToken_inv cps hv s t2 s2 heq hI)
      case _ heq => cases h
      case _ heq => cases h

/-- Claim C4: for every well-formed UTF-8 input — modelled as the byte encoding
of a list of valid code points — and every sequence of `ReadToken`/`PeekToken`
calls, the state at each return satisfies `startRunes ≤ endRunes`, the first
`start` bytes of the input encode exactly the first `startRunes` code points,
and the first `end` bytes encode exactly the first `endRunes` code points — so
the two counters are the numbers of code points preceding the corresponding
byte offsets.  This is preserved by whitespace/BOM skipping, punctuator
dispatch, names, numbers, strings with all escape forms, and block strings. -/
theorem C4_rune_offsets (cps : List Nat) (ops : List Bool) (s' : Lexer)
    (hv : validCps cps = true)
    (h : applyOps ops (Lexer.New (encodeAll cps)) = .ok s') :
    s'.startRunes ≤ s'.endRunes ∧
    s'.input.take s'.start = encodeAll (cps.take s'.startRunes) ∧
    s'.input.take s'.end_ = encodeAll (cps.take s'.endRunes) := by
  obtain ⟨hin, ⟨hS1, hS2⟩, ⟨hE1, hE2⟩, hle⟩ :=
    applyOps_inv cps hv ops _ s' h (New_inv cps)
  refine ⟨hle, ?_, ?_⟩
  · rw [hin, hS2]
    exact take_encLen cps s'.startRunes
  · rw [hin, hE2]
    exact take_encLen cps s'.endRunes

/-- Witness for C4: reading one `Name` token from the one-code-point input
`a` leaves the state with byte cursors 0 and 1 and rune counters 0 and 1, and
the invariant holds there. -/
theorem C4_rune_offsets_witness :
    validCps [97] = true ∧
    applyOps [true] (Lexer.New (encodeAll [97])) =
      .ok { input := [97], start := 0, startRunes := 0, end_ := 1, endRunes := 1, line := 1, lineStartRunes := 0, peeked := false, peekToken := zeroToken, peekError := none, lastToken := { kind := .Name, start := 0, endPos := 1, value := [97], line := 1, column := 1 } } ∧
    ({ input := [97], start := 0, startRunes := 0, end_ := 1, endRunes := 1, line := 1, lineStartRunes := 0, peeked := false, peekToken := zeroToken, peekError := none, lastToken := { kind := .Name, start := 0, endPos := 1, value := [97], line := 1, column := 1 } } : Lexer).startRunes ≤ 1 ∧
    ([97] : List Nat).take 0 = encodeAll ([97].take 0) ∧
    ([97] : List Nat).take 1 = encodeAll ([97].take 1) := by
  have h1 := C4_rune_offsets [97] [true] { input := [97], start := 0, startRunes := 0, end_ := 1, endRunes := 1, line := 1, lineStartRunes := 0, peeked := false, peekToken := zeroToken, peekError := none, lastToken := { kind := .Name, start := 0, endPos := 1, value := [97], line := 1, column := 1 } } (by decide) (by decide)
  exact ⟨by decide, by decide, h1.1, h1.2.1, h1.2.2⟩

end GqlLexer
